import Mathlib

/-!
# pi-planner plan store: formal model

A shallow embedding of the persistent plan store of the pi-planner
extension (repository marcfargas/pi-mf-extensions) together with proofs
about its documented properties.

The embedding covers:
* the Plan data model (src/persistence/types.ts);
* the document codec serializing a Plan to a header block plus body
  sections and parsing it back (modelled from the spec, the codec source
  file is not part of the source tree);
* the atomic-write / optimistic-locking update protocol (the updatePlan
  function of README.md), modelled as a small-step process over a
  filesystem so that interleavings of two concurrent writers can be
  examined;
* the lifecycle operations, preflight validation, stalled-plan detection
  and the plan_propose tool.
-/

set_option maxRecDepth 40000

namespace PiPlanner

/-! ## Character-list utilities

All strings are manipulated through their underlying character lists so
that the codec proofs stay elementary. -/

/-- Split a character list at every occurrence of the separator.
Mirrors the behaviour of splitting a text file into lines: the result is
always nonempty and joining it back with the separator restores the
input. -/
def splitChar (sep : Char) : List Char → List (List Char)
  | [] => [[]]
  | c :: rest =>
    match splitChar sep rest with
    | [] => [[c]]
    | p :: ps => if c = sep then [] :: p :: ps else (c :: p) :: ps

/-- Join character lists with a separator (inverse of `splitChar`). -/
def joinChar (sep : Char) : List (List Char) → List Char
  | [] => []
  | [p] => p
  | p :: ps => p ++ sep :: joinChar sep ps

theorem splitChar_ne_nil (sep : Char) (cs : List Char) : splitChar sep cs ≠ [] := by
  cases cs with
  | nil => simp [splitChar]
  | cons c rest =>
    simp only [splitChar]
    cases h : splitChar sep rest with
    | nil => simp
    | cons p ps =>
      by_cases hc : c = sep <;> simp [hc]

/-- Joining the pieces of a split restores the original list. -/
theorem joinChar_splitChar (sep : Char) (cs : List Char) :
    joinChar sep (splitChar sep cs) = cs := by
  induction cs with
  | nil => rfl
  | cons c rest ih =>
    simp only [splitChar]
    cases h : splitChar sep rest with
    | nil => exact absurd h (splitChar_ne_nil sep rest)
    | cons p ps =>
      rw [h] at ih
      by_cases hc : c = sep
      · subst hc
        simp only [if_pos rfl, joinChar]
        cases ps with
        | nil => simpa [joinChar] using ih
        | cons q qs => simpa [joinChar] using ih
      · simp only [if_neg hc]
        cases ps with
        | nil => simpa [joinChar] using ih
        | cons q qs => simpa [joinChar] using ih

/-- A list without the separator splits into a single piece. -/
theorem splitChar_single (sep : Char) (p : List Char) (hp : sep ∉ p) :
    splitChar sep p = [p] := by
  induction p with
  | nil => rfl
  | cons c cs ih =>
    have hcs : sep ∉ cs := fun h => hp (by simp [h])
    have hc : ¬ c = sep := fun h => hp (by simp [h])
    simp only [splitChar, ih hcs, if_neg hc]

/-- Splitting peels off a separator-free piece in front of a separator. -/
theorem splitChar_append_sep (sep : Char) (p cs : List Char) (hp : sep ∉ p) :
    splitChar sep (p ++ sep :: cs) = p :: splitChar sep cs := by
  induction p with
  | nil =>
    cases h : splitChar sep cs with
    | nil => exact absurd h (splitChar_ne_nil sep cs)
    | cons q qs => simp [splitChar, h]
  | cons c p' ih =>
    have hp' : sep ∉ p' := fun h => hp (by simp [h])
    have hc : ¬ c = sep := fun h => hp (by simp [h])
    have hih := ih hp'
    rw [List.cons_append]
    rw [splitChar, hih]
    simp [hc]

/-- No piece produced by `splitChar` contains the separator. -/
theorem splitChar_no_sep (sep : Char) (cs : List Char) :
    ∀ p ∈ splitChar sep cs, sep ∉ p := by
  induction cs with
  | nil => intro p hp; simp [splitChar] at hp; simp [hp]
  | cons c rest ih =>
    intro p hp
    rw [splitChar] at hp
    cases h : splitChar sep rest with
    | nil => exact absurd h (splitChar_ne_nil sep rest)
    | cons q qs =>
      rw [h] at hp ih
      by_cases hc : c = sep
      · simp only [if_pos hc, List.mem_cons] at hp
        rcases hp with rfl | hp
        · simp
        · exact ih p (List.mem_cons.2 hp)
      · simp only [if_neg hc, List.mem_cons] at hp
        rcases hp with rfl | hp
        · intro hm
          rcases List.mem_cons.1 hm with hm | hm
          · exact hc hm.symm
          · exact ih q (by simp) hm
        · exact ih p (by simp [hp])

/-- Splitting a join restores the pieces, provided no piece contains the
separator. -/
theorem splitChar_joinChar (sep : Char) (ps : List (List Char)) (hne : ps ≠ [])
    (hs : ∀ p ∈ ps, sep ∉ p) :
    splitChar sep (joinChar sep ps) = ps := by
  induction ps with
  | nil => exact absurd rfl hne
  | cons p ps ih =>
    cases ps with
    | nil => exact splitChar_single sep p (hs p (by simp))
    | cons q qs =>
      have hjoin : joinChar sep (p :: q :: qs) = p ++ sep :: joinChar sep (q :: qs) := rfl
      rw [hjoin, splitChar_append_sep sep p _ (hs p (by simp)),
        ih (by simp) (fun r hr => hs r (by simp [hr]))]

/-- Eta for strings: rebuilding a string from its characters is the
identity. -/
theorem mk_data (s : String) : String.mk s.data = s := rfl

/-! ## Header lines

A header line is `key: value`.  Parsing locates the first `": "`.  -/

/-- The value part after the colon of a header line: a space followed by
the value. -/
def afterColon : List Char → Option (List Char)
  | ' ' :: v => some v
  | _ => none

/-- Split a header line at the first colon (which must be followed by a
space); returns the key and value character lists. -/
def splitColon : List Char → Option (List Char × List Char)
  | [] => none
  | c :: rest =>
    if c = ':' then (afterColon rest).map (fun v => ([], v))
    else (splitColon rest).map (fun kv => (c :: kv.1, kv.2))

/-- A well-formed header line splits into its key and its value. -/
theorem splitColon_append (k v : List Char) (hk : ':' ∉ k) :
    splitColon (k ++ ':' :: ' ' :: v) = some (k, v) := by
  induction k with
  | nil => simp [splitColon, afterColon]
  | cons c k' ih =>
    have hk' : ':' ∉ k' := fun h => hk (by simp [h])
    have hc : ¬ c = ':' := fun h => hk (by simp [h])
    rw [List.cons_append, splitColon, if_neg hc, ih hk']
    rfl

/-! ## Decimal numbers -/

/-- The decimal digit character for a value below ten. -/
def digitChar : Nat → Char
  | 0 => '0' | 1 => '1' | 2 => '2' | 3 => '3' | 4 => '4'
  | 5 => '5' | 6 => '6' | 7 => '7' | 8 => '8' | _ => '9'

/-- The numeric value of a decimal digit character. -/
def charDigit (c : Char) : Option Nat :=
  if 48 ≤ c.toNat ∧ c.toNat ≤ 57 then some (c.toNat - 48) else none

theorem charDigit_digitChar (d : Nat) (hd : d < 10) :
    charDigit (digitChar d) = some d := by
  interval_cases d <;> decide

theorem digitChar_ne_nl (d : Nat) : digitChar d ≠ '\n' := by
  unfold digitChar
  split <;> decide

/-- Prepend the decimal digits of a number to a character list.  The
fuel argument keeps the recursion structural (any fuel above the number
suffices). -/
def natDigitsAux (fuel : Nat) (n : Nat) (acc : List Char) : List Char :=
  match fuel with
  | 0 => acc
  | f + 1 =>
    if n < 10 then digitChar n :: acc
    else natDigitsAux f (n / 10) (digitChar (n % 10) :: acc)

/-- Decimal rendering of a natural number. -/
def natStr (n : Nat) : String := String.mk (natDigitsAux (n + 1) n [])

/-- Read decimal digits, accumulating their value. -/
def parseNatFrom (acc : Nat) : List Char → Option Nat
  | [] => some acc
  | c :: cs =>
    match charDigit c with
    | some d => parseNatFrom (acc * 10 + d) cs
    | none => none

/-- Parse a nonempty all-digit string as a natural number. -/
def parseNatStr (s : String) : Option Nat :=
  match s.data with
  | [] => none
  | _ => parseNatFrom 0 s.data

theorem natDigitsAux_ne_nil (fuel n : Nat) (acc : List Char)
    (h : 0 < fuel ∨ acc ≠ []) : natDigitsAux fuel n acc ≠ [] := by
  induction fuel generalizing n acc with
  | zero =>
    rcases h with h | h
    · omega
    · simpa [natDigitsAux] using h
  | succ f ih =>
    rw [natDigitsAux]
    by_cases h10 : n < 10
    · simp [h10]
    · rw [if_neg h10]
      exact ih (n / 10) _ (Or.inr (by simp))

theorem parseNatFrom_natDigitsAux (fuel n : Nat) (cs : List Char) (hf : n < fuel) :
    parseNatFrom 0 (natDigitsAux fuel n cs) = parseNatFrom n cs := by
  induction fuel generalizing n cs with
  | zero => omega
  | succ f ih =>
    rw [natDigitsAux]
    by_cases h : n < 10
    · simp only [if_pos h, parseNatFrom, charDigit_digitChar n h]
      norm_num
    · have hdiv : n / 10 < n := Nat.div_lt_self (by omega) (by norm_num)
      rw [if_neg h, ih (n / 10) _ (by omega)]
      simp only [parseNatFrom, charDigit_digitChar (n % 10) (Nat.mod_lt n (by omega))]
      congr 1
      omega

/-- Decimal round trip. -/
theorem parseNatStr_natStr (n : Nat) : parseNatStr (natStr n) = some n := by
  unfold parseNatStr natStr
  cases h : (String.mk (natDigitsAux (n + 1) n [])).data with
  | nil => exact absurd h (natDigitsAux_ne_nil (n + 1) n [] (Or.inl (by omega)))
  | cons c cs =>
    have hdata : (String.mk (natDigitsAux (n + 1) n [])).data = natDigitsAux (n + 1) n [] := rfl
    rw [hdata] at h
    simp only [← h, hdata]
    rw [parseNatFrom_natDigitsAux (n + 1) n [] (by omega)]
    rfl

theorem natDigitsAux_mem (fuel n : Nat) (acc : List Char) :
    ∀ c ∈ natDigitsAux fuel n acc, (∃ d, c = digitChar d) ∨ c ∈ acc := by
  induction fuel generalizing n acc with
  | zero => intro c hc; exact Or.inr hc
  | succ f ih =>
    rw [natDigitsAux]
    by_cases h : n < 10
    · rw [if_pos h]
      intro c hc
      rcases List.mem_cons.1 hc with rfl | hc
      · exact Or.inl ⟨n, rfl⟩
      · exact Or.inr hc
    · rw [if_neg h]
      intro c hc
      rcases ih (n / 10) _ c hc with hd | hd
      · exact Or.inl hd
      · rcases List.mem_cons.1 hd with rfl | hd
        · exact Or.inl ⟨n % 10, rfl⟩
        · exact Or.inr hd

theorem natStr_no_nl : ∀ n, '\n' ∉ (natStr n).data := by
  intro n hmem
  rcases natDigitsAux_mem (n + 1) n [] _ hmem with ⟨d, hd⟩ | h
  · exact digitChar_ne_nl d hd.symm
  · simp at h

/-! ## Plan data model

Transcribed from src/persistence/types.ts of the repository. -/

/-- The plan lifecycle status (type PlanStatus in types.ts). -/
inductive PlanStatus
  | proposed
  | approved
  | executing
  | completed
  | failed
  | rejected
  | cancelled
  | stalled
  | needs_review
deriving DecidableEq, Repr

/-- One plan step (interface PlanStep in types.ts). -/
structure PlanStep where
  description : String
  tool : String
  operation : String
  target : Option String
deriving DecidableEq, Repr

/-- The plan document (interface Plan in types.ts).  The in-memory value
and the on-disk file carry the same fields. -/
structure Plan where
  id : String
  title : String
  status : PlanStatus
  version : Nat
  created_at : String
  updated_at : String
  planner_model : Option String
  tools_required : List String
  executor_model : Option String
  execution_session : Option String
  execution_started_at : Option String
  execution_ended_at : Option String
  result_summary : Option String
  steps : List PlanStep
  context : Option String
  body : Option String
deriving DecidableEq, Repr

/-! ## Document codec

Modelled from the spec: the codec (serializePlan and parsePlan of
src/persistence/plan-store.ts) is not part of the source tree; the spec
describes the format as a structured header block of key/value and list
fields followed by free-form body sections, tolerating unknown header
fields on read, and the unit tests pin the round-trip behaviour.  The
concrete line formats below are a faithful rendering of that contract. -/

/-- Render a status as its on-disk token. -/
def statusStr : PlanStatus → String
  | .proposed => "proposed"
  | .approved => "approved"
  | .executing => "executing"
  | .completed => "completed"
  | .failed => "failed"
  | .rejected => "rejected"
  | .cancelled => "cancelled"
  | .stalled => "stalled"
  | .needs_review => "needs_review"

/-- Parse a status token. -/
def statusOfStr (s : String) : Option PlanStatus :=
  if s = "proposed" then some .proposed
  else if s = "approved" then some .approved
  else if s = "executing" then some .executing
  else if s = "completed" then some .completed
  else if s = "failed" then some .failed
  else if s = "rejected" then some .rejected
  else if s = "cancelled" then some .cancelled
  else if s = "stalled" then some .stalled
  else if s = "needs_review" then some .needs_review
  else none

theorem statusOfStr_statusStr (st : PlanStatus) : statusOfStr (statusStr st) = some st := by
  cases st <;> rfl

theorem statusStr_no_nl (st : PlanStatus) : '\n' ∉ (statusStr st).data := by
  cases st <;> decide

/-- Encode an optional single-line field: absent fields are stored as the
empty string. -/
def optStr : Option String → String
  | none => ""
  | some v => v

/-- Decode an optional single-line field. -/
def strOpt (s : String) : Option String :=
  if s = "" then none else some s

theorem strOpt_optStr (f : Option String) (hf : ∀ v, f = some v → v ≠ "") :
    strOpt (optStr f) = f := by
  cases f with
  | none => rfl
  | some v =>
    have := hf v rfl
    simp [optStr, strOpt, this]

/-- Join tool names with commas. -/
def joinComma (ts : List String) : String :=
  match ts with
  | [] => ""
  | _ => String.mk (joinChar ',' (ts.map String.data))

/-- Split a comma-joined tool list. -/
def splitComma (s : String) : List String :=
  if s = "" then [] else (splitChar ',' s.data).map String.mk

theorem joinChar_ne_nil (sep : Char) (p : List Char) (ps : List (List Char))
    (hp : p ≠ []) : joinChar sep (p :: ps) ≠ [] := by
  cases ps with
  | nil => simpa [joinChar] using hp
  | cons q qs =>
    have : joinChar sep (p :: q :: qs) = p ++ sep :: joinChar sep (q :: qs) := rfl
    rw [this]
    cases p with
    | nil => simp
    | cons c cs => simp

theorem joinChar_mem (sep : Char) (ps : List (List Char)) :
    ∀ c ∈ joinChar sep ps, c = sep ∨ ∃ p ∈ ps, c ∈ p := by
  induction ps with
  | nil => intro c hc; simp [joinChar] at hc
  | cons p ps ih =>
    cases ps with
    | nil =>
      intro c hc
      simp only [joinChar] at hc
      exact Or.inr ⟨p, by simp, hc⟩
    | cons q qs =>
      intro c hc
      have : joinChar sep (p :: q :: qs) = p ++ sep :: joinChar sep (q :: qs) := rfl
      rw [this] at hc
      rcases List.mem_append.1 hc with hc | hc
      · exact Or.inr ⟨p, by simp, hc⟩
      · rcases List.mem_cons.1 hc with rfl | hc
        · exact Or.inl rfl
        · rcases ih c hc with h | ⟨r, hr, hcr⟩
          · exact Or.inl h
          · exact Or.inr ⟨r, by simp [hr], hcr⟩

theorem map_mk_data (ls : List String) :
    ls.map (String.mk ∘ String.data) = ls := by
  induction ls with
  | nil => rfl
  | cons l ls ih => simp [ih, mk_data]

theorem splitComma_joinComma (ts : List String)
    (h : ∀ t ∈ ts, t ≠ "" ∧ ',' ∉ t.data) :
    splitComma (joinComma ts) = ts := by
  cases ts with
  | nil => rfl
  | cons t rest =>
    have hred : joinComma (t :: rest) = String.mk (joinChar ',' ((t :: rest).map String.data)) := rfl
    have ht : t.data ≠ [] := by
      intro hd
      exact (h t (by simp)).1 (by cases t; simp at hd; simp [hd])
    have hne : joinComma (t :: rest) ≠ "" := by
      rw [hred]
      intro hcon
      exact joinChar_ne_nil ',' t.data (rest.map String.data) ht (congrArg String.data hcon)
    unfold splitComma
    rw [if_neg hne]
    have hdata : (joinComma (t :: rest)).data = joinChar ',' ((t :: rest).map String.data) := by
      rw [hred]
    rw [hdata, splitChar_joinChar ',' _ (by simp) ?noc]
    case noc =>
      intro q hq
      rcases List.mem_map.1 hq with ⟨u, hu, rfl⟩
      exact (h u hu).2
    rw [List.map_map, map_mk_data]

theorem joinComma_no_nl (ts : List String)
    (h : ∀ t ∈ ts, '\n' ∉ t.data) : '\n' ∉ (joinComma ts).data := by
  cases ts with
  | nil => simp [joinComma]
  | cons t rest =>
    intro hc
    have hdata : (joinComma (t :: rest)).data = joinChar ',' ((t :: rest).map String.data) := by
      unfold joinComma; rfl
    rw [hdata] at hc
    rcases joinChar_mem ',' _ _ hc with hcc | ⟨q, hq, hcq⟩
    · exact absurd hcc (by decide)
    · rcases List.mem_map.1 hq with ⟨u, hu, rfl⟩
      exact h u hu hcq

/-- A header line: key, colon, space, value. -/
def mkLine (k v : String) : String :=
  String.mk (k.data ++ ':' :: ' ' :: v.data)

theorem mkLine_data (k v : String) :
    (mkLine k v).data = k.data ++ ':' :: ' ' :: v.data := rfl

theorem mkLine_ne_steps (k v : String) : mkLine k v ≠ "## Steps" := by
  intro h
  have : (mkLine k v).data = ("## Steps" : String).data := by rw [h]
  rw [mkLine_data] at this
  have hcolon : ':' ∈ ("## Steps" : String).data := by
    rw [← this]; simp
  exact absurd hcolon (by decide)

theorem mkLine_no_nl (k v : String) (hk : '\n' ∉ k.data) (hv : '\n' ∉ v.data) :
    '\n' ∉ (mkLine k v).data := by
  rw [mkLine_data]
  intro hc
  rcases List.mem_append.1 hc with hc | hc
  · exact hk hc
  · rcases List.mem_cons.1 hc with hc | hc
    · exact absurd hc (by decide)
    · rcases List.mem_cons.1 hc with hc | hc
      · exact absurd hc (by decide)
      · exact hv hc

/-! ### Header parsing -/

/-- Accumulator for header parsing: the raw values of the required
fields and decoded values of the optional ones, as they are seen. -/
structure HAcc where
  id : Option String := none
  title : Option String := none
  status : Option String := none
  version : Option String := none
  created_at : Option String := none
  updated_at : Option String := none
  planner_model : Option String := none
  tools_required : Option String := none
  executor_model : Option String := none
  execution_session : Option String := none
  execution_started_at : Option String := none
  execution_ended_at : Option String := none
  result_summary : Option String := none
deriving DecidableEq, Repr

/-- The known header keys. -/
inductive HKey
  | kid | ktitle | kstatus | kversion | kcreated | kupdated | kplanner
  | ktools | kexecutor | ksession | kstarted | kended | ksummary
deriving DecidableEq, Repr

/-- Map a key string to its known-key tag; unknown keys map to none and
are ignored by the parser (forward compatibility). -/
def keyIndex (k : String) : Option HKey :=
  if k = "id" then some .kid
  else if k = "title" then some .ktitle
  else if k = "status" then some .kstatus
  else if k = "version" then some .kversion
  else if k = "created_at" then some .kcreated
  else if k = "updated_at" then some .kupdated
  else if k = "planner_model" then some .kplanner
  else if k = "tools_required" then some .ktools
  else if k = "executor_model" then some .kexecutor
  else if k = "execution_session" then some .ksession
  else if k = "execution_started_at" then some .kstarted
  else if k = "execution_ended_at" then some .kended
  else if k = "result_summary" then some .ksummary
  else none

/-- Record one recognized header field. -/
def applyKey (acc : HAcc) (k : HKey) (v : String) : HAcc :=
  match k with
  | .kid => { acc with id := some v }
  | .ktitle => { acc with title := some v }
  | .kstatus => { acc with status := some v }
  | .kversion => { acc with version := some v }
  | .kcreated => { acc with created_at := some v }
  | .kupdated => { acc with updated_at := some v }
  | .kplanner => { acc with planner_model := strOpt v }
  | .ktools => { acc with tools_required := some v }
  | .kexecutor => { acc with executor_model := strOpt v }
  | .ksession => { acc with execution_session := strOpt v }
  | .kstarted => { acc with execution_started_at := strOpt v }
  | .kended => { acc with execution_ended_at := strOpt v }
  | .ksummary => { acc with result_summary := strOpt v }

/-- Process one header line: lines that are not `key: value` and lines
with an unknown key are ignored. -/
def hStep (acc : HAcc) (line : String) : HAcc :=
  match splitColon line.data with
  | none => acc
  | some kv =>
    match keyIndex (String.mk kv.1) with
    | none => acc
    | some k => applyKey acc k (String.mk kv.2)

/-- The header data assembled after the fold, when all required fields
are present and well formed. -/
structure HeaderData where
  id : String
  title : String
  status : PlanStatus
  version : Nat
  created_at : String
  updated_at : String
  planner_model : Option String
  tools_required : List String
  executor_model : Option String
  execution_session : Option String
  execution_started_at : Option String
  execution_ended_at : Option String
  result_summary : Option String
deriving DecidableEq, Repr

def assembleHeader (acc : HAcc) : Option HeaderData :=
  match acc.id, acc.title, acc.status, acc.version,
      acc.created_at, acc.updated_at, acc.tools_required with
  | some i, some t, some st, some vs, some ca, some ua, some tr =>
    match statusOfStr st, parseNatStr vs with
    | some status, some v =>
      some ⟨i, t, status, v, ca, ua, acc.planner_model, splitComma tr,
        acc.executor_model, acc.execution_session, acc.execution_started_at,
        acc.execution_ended_at, acc.result_summary⟩
    | _, _ => none
  | _, _, _, _, _, _, _ => none

/-! ### Serializer -/

/-- The header block: thirteen lines, one per field of the data model
outside steps/context/body. -/
def hdrLines (p : Plan) : List String :=
  [mkLine "id" p.id,
   mkLine "title" p.title,
   mkLine "status" (statusStr p.status),
   mkLine "version" (natStr p.version),
   mkLine "created_at" p.created_at,
   mkLine "updated_at" p.updated_at,
   mkLine "planner_model" (optStr p.planner_model),
   mkLine "tools_required" (joinComma p.tools_required),
   mkLine "executor_model" (optStr p.executor_model),
   mkLine "execution_session" (optStr p.execution_session),
   mkLine "execution_started_at" (optStr p.execution_started_at),
   mkLine "execution_ended_at" (optStr p.execution_ended_at),
   mkLine "result_summary" (optStr p.result_summary)]

/-- One step of the `## Steps` section, as a dashed list item. -/
def stepLine (s : PlanStep) : String :=
  String.mk ('-' :: ' ' ::
    joinChar '|' [s.description.data, s.tool.data, s.operation.data, (optStr s.target).data])

/-- Recognize a step line (a dashed list item). -/
def isDashLine (l : String) : Bool :=
  match l.data with
  | c1 :: c2 :: _ => (c1 = '-') && (c2 = ' ')
  | _ => false

/-- Split a string into its lines. -/
def splitNL (s : String) : List String := (splitChar '\n' s.data).map String.mk

/-- Join lines back into a string. -/
def joinNL (ls : List String) : String := String.mk (joinChar '\n' (ls.map String.data))

theorem joinNL_splitNL (s : String) : joinNL (splitNL s) = s := by
  unfold joinNL splitNL
  rw [List.map_map]
  have : (splitChar '\n' s.data).map (String.data ∘ String.mk) = splitChar '\n' s.data := by
    induction splitChar '\n' s.data with
    | nil => rfl
    | cons q qs ih => simp [ih]
  rw [this, joinChar_splitChar, mk_data]

theorem splitNL_joinNL (ls : List String) (hne : ls ≠ [])
    (h : ∀ l ∈ ls, '\n' ∉ l.data) : splitNL (joinNL ls) = ls := by
  unfold joinNL splitNL
  have hd : (String.mk (joinChar '\n' (ls.map String.data))).data
      = joinChar '\n' (ls.map String.data) := rfl
  rw [hd, splitChar_joinChar '\n' _ (by simpa using hne) ?hno, List.map_map, map_mk_data]
  case hno =>
    intro q hq
    rcases List.mem_map.1 hq with ⟨u, hu, rfl⟩
    exact h u hu

/-- The trailing sections: context and body, each introduced by a
marker line. -/
def sectLines (p : Plan) : List String :=
  (match p.context with
   | none => []
   | some c => "## Context" :: splitNL c) ++
  (match p.body with
   | none => []
   | some b => "## Body" :: splitNL b)

/-- All lines of the serialized document. -/
def serializeLines (p : Plan) : List String :=
  hdrLines p ++ "## Steps" :: (p.steps.map stepLine ++ sectLines p)

/-- Serialize a plan to its on-disk document. -/
def serializePlan (p : Plan) : String := joinNL (serializeLines p)

/-! ### Parser -/

/-- Parse every element, failing if any single parse fails. -/
def mapO {α β : Type} (f : α → Option β) (xs : List α) : Option (List β) :=
  match xs with
  | [] => some []
  | hd :: tl =>
    match f hd with
    | none => none
    | some b => (mapO f tl).map (fun bs => b :: bs)

def parseStepLine (l : String) : Option PlanStep :=
  match l.data with
  | c1 :: c2 :: rest =>
    if c1 = '-' then
      if c2 = ' ' then
        match (splitChar '|' rest).map String.mk with
        | [d, t, o, g] => some ⟨d, t, o, strOpt g⟩
        | _ => none
      else none
    else none
  | _ => none

def parseSections : List String → Option (Option String × Option String)
  | [] => some (none, none)
  | marker :: rest =>
    if marker = "## Body" then some (none, some (joinNL rest))
    else if marker = "## Context" then
      match rest.dropWhile (fun l => l ≠ "## Body") with
      | [] => some (some (joinNL (rest.takeWhile (fun l => l ≠ "## Body"))), none)
      | _ :: bodyLines =>
        some (some (joinNL (rest.takeWhile (fun l => l ≠ "## Body"))), some (joinNL bodyLines))
    else none

/-- Assemble the plan out of the parsed header, steps and sections. -/
def parseTail (acc : HAcc) (sls rest : List String) : Option Plan :=
  match assembleHeader acc, mapO parseStepLine sls, parseSections rest with
  | some h, some steps, some sect =>
    some ⟨h.id, h.title, h.status, h.version, h.created_at, h.updated_at,
      h.planner_model, h.tools_required, h.executor_model, h.execution_session,
      h.execution_started_at, h.execution_ended_at, h.result_summary,
      steps, sect.1, sect.2⟩
  | _, _, _ => none

/-- Parse the part after the header: the steps marker line, the dashed
step lines, then the sections. -/
def parseAfterHdr (acc : HAcc) : List String → Option Plan
  | [] => none
  | _ :: after =>
    parseTail acc (after.takeWhile (fun l => isDashLine l))
      (after.dropWhile (fun l => isDashLine l))

def parseLines (ls : List String) : Option Plan :=
  parseAfterHdr ((ls.takeWhile (fun l => l ≠ "## Steps")).foldl hStep {})
    (ls.dropWhile (fun l => l ≠ "## Steps"))

/-- Parse an on-disk document into a plan. -/
def parsePlan (s : String) : Option Plan := parseLines (splitNL s)

/-! ### Validity

A plan value is valid when its single-line fields contain no newline,
its encoded list elements do not contain the list separators, optional
fields are not the empty string (which encodes absence), and the
free-form context does not contain a line equal to the body marker. -/

def validOpt (f : Option String) : Prop :=
  match f with
  | none => True
  | some v => v ≠ "" ∧ '\n' ∉ v.data

instance : (f : Option String) → Decidable (validOpt f)
  | none => isTrue trivial
  | some v => inferInstanceAs (Decidable (v ≠ "" ∧ '\n' ∉ v.data))

/-- Validity of the optional step target. -/
def validTgt (g : Option String) : Prop :=
  match g with
  | none => True
  | some v => v ≠ "" ∧ '|' ∉ v.data ∧ '\n' ∉ v.data

instance : (g : Option String) → Decidable (validTgt g)
  | none => isTrue trivial
  | some v => inferInstanceAs (Decidable (v ≠ "" ∧ '|' ∉ v.data ∧ '\n' ∉ v.data))

abbrev validStep (s : PlanStep) : Prop :=
  ('|' ∉ s.description.data ∧ '\n' ∉ s.description.data) ∧
  ('|' ∉ s.tool.data ∧ '\n' ∉ s.tool.data) ∧
  ('|' ∉ s.operation.data ∧ '\n' ∉ s.operation.data) ∧
  validTgt s.target

def validCtx (c : Option String) : Prop :=
  match c with
  | none => True
  | some v => ∀ l ∈ splitNL v, l ≠ "## Body"

instance : (c : Option String) → Decidable (validCtx c)
  | none => isTrue trivial
  | some v => inferInstanceAs (Decidable (∀ l ∈ splitNL v, l ≠ "## Body"))

abbrev ValidPlan (p : Plan) : Prop :=
  '\n' ∉ p.id.data ∧ '\n' ∉ p.title.data ∧
  '\n' ∉ p.created_at.data ∧ '\n' ∉ p.updated_at.data ∧
  validOpt p.planner_model ∧ validOpt p.executor_model ∧
  validOpt p.execution_session ∧ validOpt p.execution_started_at ∧
  validOpt p.execution_ended_at ∧ validOpt p.result_summary ∧
  (∀ t ∈ p.tools_required, t ≠ "" ∧ ',' ∉ t.data ∧ '\n' ∉ t.data) ∧
  (∀ s ∈ p.steps, validStep s) ∧
  validCtx p.context

/-! ### Round trip -/

theorem takeWhile_append_stop {α : Type} (pp : α → Bool) (xs ys : List α) (y : α)
    (hxs : ∀ x ∈ xs, pp x = true) (hy : pp y = false) :
    (xs ++ y :: ys).takeWhile pp = xs := by
  induction xs with
  | nil => simp [List.takeWhile_cons, hy]
  | cons a xs ih =>
    have ha : pp a = true := hxs a (by simp)
    simp only [List.cons_append, List.takeWhile_cons, ha]
    simp [ih (fun x hx => hxs x (by simp [hx]))]

theorem dropWhile_append_stop {α : Type} (pp : α → Bool) (xs ys : List α) (y : α)
    (hxs : ∀ x ∈ xs, pp x = true) (hy : pp y = false) :
    (xs ++ y :: ys).dropWhile pp = y :: ys := by
  induction xs with
  | nil => simp [List.dropWhile_cons, hy]
  | cons a xs ih =>
    have ha : pp a = true := hxs a (by simp)
    simp only [List.cons_append, List.dropWhile_cons, ha]
    simp [ih (fun x hx => hxs x (by simp [hx]))]

theorem takeWhile_all {α : Type} (pp : α → Bool) (xs : List α)
    (hxs : ∀ x ∈ xs, pp x = true) : xs.takeWhile pp = xs := by
  induction xs with
  | nil => rfl
  | cons a xs ih =>
    have ha : pp a = true := hxs a (by simp)
    simp [List.takeWhile_cons, ha, ih (fun x hx => hxs x (by simp [hx]))]

theorem dropWhile_all {α : Type} (pp : α → Bool) (xs : List α)
    (hxs : ∀ x ∈ xs, pp x = true) : xs.dropWhile pp = [] := by
  induction xs with
  | nil => rfl
  | cons a xs ih =>
    have ha : pp a = true := hxs a (by simp)
    simp [List.dropWhile_cons, ha, ih (fun x hx => hxs x (by simp [hx]))]

/-- Every line of a serialized valid plan is newline-free. -/
theorem serializeLines_no_nl (p : Plan) (hp : ValidPlan p) :
    ∀ l ∈ serializeLines p, '\n' ∉ l.data := by
  obtain ⟨hid, htitle, hca, hua, hpm, hem, hes, hesa, heea, hrs, htools, hsteps, hctx⟩ := hp
  have hopt : ∀ f : Option String, validOpt f → '\n' ∉ (optStr f).data := by
    intro f hf
    cases f with
    | none => simp [optStr]
    | some v => exact hf.2
  intro l hl
  unfold serializeLines at hl
  rcases List.mem_append.1 hl with hl | hl
  · -- header lines
    unfold hdrLines at hl
    simp only [List.mem_cons, List.not_mem_nil, or_false] at hl
    rcases hl with rfl | rfl | rfl | rfl | rfl | rfl | hl
    · exact mkLine_no_nl _ _ (by decide) hid
    · exact mkLine_no_nl _ _ (by decide) htitle
    · exact mkLine_no_nl _ _ (by decide) (statusStr_no_nl p.status)
    · exact mkLine_no_nl _ _ (by decide) (natStr_no_nl p.version)
    · exact mkLine_no_nl _ _ (by decide) hca
    · exact mkLine_no_nl _ _ (by decide) hua
    rcases hl with rfl | rfl | rfl | rfl | rfl | rfl | rfl
    · exact mkLine_no_nl _ _ (by decide) (hopt _ hpm)
    · exact mkLine_no_nl _ _ (by decide) (joinComma_no_nl _ (fun t ht => (htools t ht).2.2))
    · exact mkLine_no_nl _ _ (by decide) (hopt _ hem)
    · exact mkLine_no_nl _ _ (by decide) (hopt _ hes)
    · exact mkLine_no_nl _ _ (by decide) (hopt _ hesa)
    · exact mkLine_no_nl _ _ (by decide) (hopt _ heea)
    · exact mkLine_no_nl _ _ (by decide) (hopt _ hrs)
  · rcases List.mem_cons.1 hl with rfl | hl
    · decide
    · rcases List.mem_append.1 hl with hl | hl
      · -- step lines
        rcases List.mem_map.1 hl with ⟨s, hs, rfl⟩
        obtain ⟨⟨_, hd⟩, ⟨_, ht⟩, ⟨_, ho⟩, hg⟩ := hsteps s hs
        have hgd : '\n' ∉ (optStr s.target).data := by
          cases htg : s.target with
          | none => simp [optStr]
          | some g =>
            rw [htg] at hg
            exact (hg.2.2 : '\n' ∉ g.data)
        intro hc
        have hdl : (stepLine s).data = '-' :: ' ' ::
            joinChar '|' [s.description.data, s.tool.data, s.operation.data,
              (optStr s.target).data] := rfl
        rw [hdl] at hc
        rcases List.mem_cons.1 hc with hc | hc
        · exact absurd hc (by decide)
        rcases List.mem_cons.1 hc with hc | hc
        · exact absurd hc (by decide)
        rcases joinChar_mem '|' _ _ hc with hc | ⟨q, hq, hcq⟩
        · exact absurd hc (by decide)
        · simp only [List.mem_cons, List.not_mem_nil, or_false] at hq
          rcases hq with rfl | rfl | rfl | rfl
          · exact hd hcq
          · exact ht hcq
          · exact ho hcq
          · exact hgd hcq
      · -- section lines
        unfold sectLines at hl
        rcases List.mem_append.1 hl with hl | hl
        · cases hcx : p.context with
          | none => rw [hcx] at hl; simp at hl
          | some c =>
            rw [hcx] at hl
            rcases List.mem_cons.1 hl with rfl | hl
            · decide
            · rcases List.mem_map.1 hl with ⟨q, hq, rfl⟩
              exact splitChar_no_sep '\n' c.data q hq
        · cases hb : p.body with
          | none => rw [hb] at hl; simp at hl
          | some b =>
            rw [hb] at hl
            rcases List.mem_cons.1 hl with rfl | hl
            · decide
            · rcases List.mem_map.1 hl with ⟨q, hq, rfl⟩
              exact splitChar_no_sep '\n' b.data q hq

/-- Parsing a serialized step line restores the step. -/
theorem parseStepLine_stepLine (s : PlanStep) (hs : validStep s) :
    parseStepLine (stepLine s) = some s := by
  obtain ⟨⟨hd, _⟩, ⟨ht, _⟩, ⟨ho, _⟩, hg⟩ := hs
  have hgd : '|' ∉ (optStr s.target).data := by
    cases htg : s.target with
    | none => simp [optStr]
    | some g =>
      rw [htg] at hg
      simp only [validTgt] at hg
      exact hg.2.1
  have htgt : strOpt (optStr s.target) = s.target := by
    apply strOpt_optStr
    intro v hv
    rw [hv] at hg
    simp only [validTgt] at hg
    exact hg.1
  have hsplit : splitChar '|' (joinChar '|' [s.description.data, s.tool.data,
      s.operation.data, (optStr s.target).data]) =
      [s.description.data, s.tool.data, s.operation.data, (optStr s.target).data] := by
    apply splitChar_joinChar
    · simp
    · intro q hq
      simp only [List.mem_cons, List.not_mem_nil, or_false] at hq
      rcases hq with rfl | rfl | rfl | rfl
      · exact hd
      · exact ht
      · exact ho
      · exact hgd
  have hred : parseStepLine (stepLine s) =
      (match (splitChar '|' (joinChar '|' [s.description.data, s.tool.data,
          s.operation.data, (optStr s.target).data])).map String.mk with
       | [d, t, o, g] => some ⟨d, t, o, strOpt g⟩
       | _ => none) := rfl
  rw [hred, hsplit]
  simp only [List.map_cons, List.map_nil, mk_data]
  rw [htgt]

/-- Parsing the serialized step lines restores the step list. -/
theorem mapO_stepLines (steps : List PlanStep) (h : ∀ s ∈ steps, validStep s) :
    mapO parseStepLine (steps.map stepLine) = some steps := by
  induction steps with
  | nil => rfl
  | cons s rest ih =>
    simp only [List.map_cons, mapO, parseStepLine_stepLine s (h s (by simp)),
      ih (fun x hx => h x (by simp [hx]))]
    rfl

/-- Reduction of the section parser on a body-only section list. -/
theorem parseSections_body (rest : List String) :
    parseSections ("## Body" :: rest) = some (none, some (joinNL rest)) := rfl

/-- Reduction of the section parser on a section list opened by the
context marker. -/
theorem parseSections_ctx (rest : List String) :
    parseSections ("## Context" :: rest) =
      (match rest.dropWhile (fun l => l ≠ "## Body") with
       | [] => some (some (joinNL (rest.takeWhile (fun l => l ≠ "## Body"))), none)
       | _ :: bodyLines =>
         some (some (joinNL (rest.takeWhile (fun l => l ≠ "## Body"))),
           some (joinNL bodyLines))) := rfl

/-- Parsing the serialized section lines restores context and body. -/
theorem parseSections_sectLines (p : Plan) (hctx : validCtx p.context) :
    parseSections (sectLines p) = some (p.context, p.body) := by
  unfold sectLines
  cases hcx : p.context with
  | none =>
    cases hb : p.body with
    | none => rfl
    | some b =>
      simp only [List.nil_append]
      rw [parseSections_body, joinNL_splitNL]
  | some c =>
    rw [hcx] at hctx
    simp only [validCtx] at hctx
    have hlines : ∀ l ∈ splitNL c, (fun l => decide (l ≠ "## Body")) l = true := by
      intro l hl
      simpa using hctx l hl
    cases hb : p.body with
    | none =>
      simp only [List.append_nil]
      rw [parseSections_ctx, dropWhile_all _ _ hlines, takeWhile_all _ _ hlines,
        joinNL_splitNL]
    | some b =>
      have hmarker : (fun l => decide (l ≠ "## Body")) "## Body" = false := by decide
      simp only [List.cons_append]
      rw [parseSections_ctx, dropWhile_append_stop _ _ _ _ hlines hmarker,
        takeWhile_append_stop _ _ _ _ hlines hmarker, joinNL_splitNL]
      show some (some c, some (joinNL (splitNL b))) = some (some c, some b)
      rw [joinNL_splitNL]

/-- The serialized header folds to the fully populated accumulator. -/
theorem hdr_fold (p : Plan) : List.foldl hStep {} (hdrLines p) =
    ⟨some p.id, some p.title, some (statusStr p.status), some (natStr p.version),
     some p.created_at, some p.updated_at, strOpt (optStr p.planner_model),
     some (joinComma p.tools_required), strOpt (optStr p.executor_model),
     strOpt (optStr p.execution_session), strOpt (optStr p.execution_started_at),
     strOpt (optStr p.execution_ended_at), strOpt (optStr p.result_summary)⟩ := rfl

/-- The first section line, when present, is a section marker and not a
dashed step line. -/
theorem sectLines_head_not_dash (p : Plan) (y : String) (ys : List String)
    (hsl : sectLines p = y :: ys) : isDashLine y = false := by
  unfold sectLines at hsl
  rcases hcx : p.context with _ | c <;> rcases hb : p.body with _ | b <;>
    rw [hcx, hb] at hsl <;> simp at hsl
  · obtain ⟨rfl, _⟩ := hsl
    decide
  · obtain ⟨rfl, _⟩ := hsl
    decide
  · obtain ⟨rfl, _⟩ := hsl
    decide

/-- No header line is the steps marker. -/
theorem hdrLines_ne_steps (p : Plan) :
    ∀ x ∈ hdrLines p, (fun l => decide (l ≠ "## Steps")) x = true := by
  intro x hx
  unfold hdrLines at hx
  simp only [List.mem_cons, List.not_mem_nil, or_false] at hx
  have : x ≠ "## Steps" := by
    rcases hx with rfl | rfl | rfl | rfl | rfl | rfl | hx
    · exact mkLine_ne_steps _ _
    · exact mkLine_ne_steps _ _
    · exact mkLine_ne_steps _ _
    · exact mkLine_ne_steps _ _
    · exact mkLine_ne_steps _ _
    · exact mkLine_ne_steps _ _
    rcases hx with rfl | rfl | rfl | rfl | rfl | rfl | rfl <;>
      exact mkLine_ne_steps _ _
  simpa using this

/-- Parsing the part after the header of a serialized valid plan, from
the fully populated accumulator, restores the plan. -/
theorem parseAfterHdr_serialized (p : Plan) (hp : ValidPlan p) :
    parseAfterHdr
      ⟨some p.id, some p.title, some (statusStr p.status), some (natStr p.version),
       some p.created_at, some p.updated_at, strOpt (optStr p.planner_model),
       some (joinComma p.tools_required), strOpt (optStr p.executor_model),
       strOpt (optStr p.execution_session), strOpt (optStr p.execution_started_at),
       strOpt (optStr p.execution_ended_at), strOpt (optStr p.result_summary)⟩
      ("## Steps" :: (p.steps.map stepLine ++ sectLines p)) = some p := by
  obtain ⟨hid, htitle, hca, hua, hpm, hem, hes, hesa, heea, hrs, htools, hsteps, hctx⟩ := hp
  have hdash : ∀ x ∈ p.steps.map stepLine, isDashLine x = true := by
    intro x hx
    rcases List.mem_map.1 hx with ⟨s, _, rfl⟩
    rfl
  have htw : (p.steps.map stepLine ++ sectLines p).takeWhile (fun l => isDashLine l)
      = p.steps.map stepLine := by
    rcases hsl : sectLines p with _ | ⟨y, ys⟩
    · rw [List.append_nil]
      exact takeWhile_all _ _ hdash
    · exact takeWhile_append_stop _ _ _ _ hdash (sectLines_head_not_dash p y ys hsl)
  have hdw : (p.steps.map stepLine ++ sectLines p).dropWhile (fun l => isDashLine l)
      = sectLines p := by
    rcases hsl : sectLines p with _ | ⟨y, ys⟩
    · rw [List.append_nil]
      exact dropWhile_all _ _ hdash
    · exact dropWhile_append_stop _ _ _ _ hdash (sectLines_head_not_dash p y ys hsl)
  have h1 : strOpt (optStr p.planner_model) = p.planner_model :=
    strOpt_optStr _ (fun v hv => by rw [hv] at hpm; exact hpm.1)
  have h2 : strOpt (optStr p.executor_model) = p.executor_model :=
    strOpt_optStr _ (fun v hv => by rw [hv] at hem; exact hem.1)
  have h3 : strOpt (optStr p.execution_session) = p.execution_session :=
    strOpt_optStr _ (fun v hv => by rw [hv] at hes; exact hes.1)
  have h4 : strOpt (optStr p.execution_started_at) = p.execution_started_at :=
    strOpt_optStr _ (fun v hv => by rw [hv] at hesa; exact hesa.1)
  have h5 : strOpt (optStr p.execution_ended_at) = p.execution_ended_at :=
    strOpt_optStr _ (fun v hv => by rw [hv] at heea; exact heea.1)
  have h6 : strOpt (optStr p.result_summary) = p.result_summary :=
    strOpt_optStr _ (fun v hv => by rw [hv] at hrs; exact hrs.1)
  have h7 : splitComma (joinComma p.tools_required) = p.tools_required :=
    splitComma_joinComma _ (fun t ht => ⟨(htools t ht).1, (htools t ht).2.1⟩)
  rw [show ∀ acc after, parseAfterHdr acc ("## Steps" :: after) =
      parseTail acc (after.takeWhile (fun l => isDashLine l))
        (after.dropWhile (fun l => isDashLine l)) from fun _ _ => rfl]
  rw [htw, hdw]
  unfold parseTail
  rw [mapO_stepLines p.steps hsteps, parseSections_sectLines p hctx]
  rw [show ∀ (pm em es esa eea rs : Option String),
      assembleHeader ⟨some p.id, some p.title, some (statusStr p.status),
        some (natStr p.version), some p.created_at, some p.updated_at, pm,
        some (joinComma p.tools_required), em, es, esa, eea, rs⟩
      = (match statusOfStr (statusStr p.status), parseNatStr (natStr p.version) with
         | some st, some v => some (⟨p.id, p.title, st, v, p.created_at, p.updated_at,
             pm, splitComma (joinComma p.tools_required), em, es, esa, eea, rs⟩ : HeaderData)
         | _, _ => none) from fun _ _ _ _ _ _ => rfl]
  rw [statusOfStr_statusStr, parseNatStr_natStr]
  simp only [h1, h2, h3, h4, h5, h6, h7]

/-- Round trip: parsing a serialized valid plan restores it
field-for-field. -/
theorem parse_serialize (p : Plan) (hp : ValidPlan p) :
    parsePlan (serializePlan p) = some p := by
  unfold parsePlan serializePlan
  rw [splitNL_joinNL _ (by simp [serializeLines, hdrLines]) (serializeLines_no_nl p hp)]
  unfold parseLines serializeLines
  have hmk : (fun l => decide (l ≠ "## Steps")) "## Steps" = false := by decide
  rw [takeWhile_append_stop _ _ _ _ (hdrLines_ne_steps p) hmk,
    dropWhile_append_stop _ _ _ _ (hdrLines_ne_steps p) hmk, hdr_fold p]
  exact parseAfterHdr_serialized p hp

/-- The document of a valid plan with one extra unknown header line
inserted at position k of the header block. -/
def serializeWithExtra (p : Plan) (k : Nat) (extra : String) : String :=
  joinNL (((hdrLines p).take k ++ extra :: (hdrLines p).drop k)
    ++ "## Steps" :: (p.steps.map stepLine ++ sectLines p))

/-- An unknown header line leaves the parse accumulator unchanged. -/
theorem hStep_unknown (acc : HAcc) (extra : String)
    (hunk : ∀ kv, splitColon extra.data = some kv → keyIndex (String.mk kv.1) = none) :
    hStep acc extra = acc := by
  unfold hStep
  cases h : splitColon extra.data with
  | none => rfl
  | some kv =>
    show (match keyIndex (String.mk kv.1) with
          | none => acc
          | some k2 => applyKey acc k2 (String.mk kv.2)) = acc
    rw [hunk kv h]

/-- Every line of the header block of a serialized valid plan is
newline-free. -/
theorem hdrLines_no_nl (p : Plan) (hp : ValidPlan p) :
    ∀ l ∈ hdrLines p, '\n' ∉ l.data := by
  intro l hl
  exact serializeLines_no_nl p hp l
    (by unfold serializeLines; exact List.mem_append_left _ hl)

/-- Forward compatibility: parsing tolerates an unknown extra header
field, inserted anywhere in the header block, by ignoring it. -/
theorem parse_tolerates_unknown (p : Plan) (hp : ValidPlan p) (k : Nat) (extra : String)
    (hnl : '\n' ∉ extra.data) (hne : extra ≠ "## Steps")
    (hunk : ∀ kv, splitColon extra.data = some kv → keyIndex (String.mk kv.1) = none) :
    parsePlan (serializeWithExtra p k extra) = some p := by
  unfold parsePlan serializeWithExtra
  have hlines : ∀ l ∈ (hdrLines p).take k ++ extra :: (hdrLines p).drop k,
      '\n' ∉ l.data := by
    intro l hl
    rcases List.mem_append.1 hl with hl | hl
    · exact hdrLines_no_nl p hp l (List.take_subset k _ hl)
    · rcases List.mem_cons.1 hl with rfl | hl
      · exact hnl
      · exact hdrLines_no_nl p hp l (List.drop_subset k _ hl)
  have hnl2 : ∀ l ∈ ((hdrLines p).take k ++ extra :: (hdrLines p).drop k)
      ++ "## Steps" :: (p.steps.map stepLine ++ sectLines p), '\n' ∉ l.data := by
    intro l hl
    rcases List.mem_append.1 hl with hl | hl
    · exact hlines l hl
    · rcases List.mem_cons.1 hl with rfl | hl
      · decide
      · exact serializeLines_no_nl p hp l
          (by unfold serializeLines
              exact List.mem_append_right _ (List.mem_cons_of_mem _ hl))
  have hnonnil : ((hdrLines p).take k ++ extra :: (hdrLines p).drop k)
      ++ "## Steps" :: (p.steps.map stepLine ++ sectLines p) ≠ [] := by
    intro hcon
    have := congrArg List.length hcon
    simp at this
  rw [splitNL_joinNL _ hnonnil hnl2]
  unfold parseLines
  have hmk : (fun l => decide (l ≠ "## Steps")) "## Steps" = false := by decide
  have hok : ∀ x ∈ (hdrLines p).take k ++ extra :: (hdrLines p).drop k,
      (fun l => decide (l ≠ "## Steps")) x = true := by
    intro x hx
    rcases List.mem_append.1 hx with hx | hx
    · exact hdrLines_ne_steps p x (List.take_subset k _ hx)
    · rcases List.mem_cons.1 hx with rfl | hx
      · simpa using hne
      · exact hdrLines_ne_steps p x (List.drop_subset k _ hx)
  rw [takeWhile_append_stop _ _ _ _ hok hmk, dropWhile_append_stop _ _ _ _ hok hmk]
  have hfold : ((hdrLines p).take k ++ extra :: (hdrLines p).drop k).foldl hStep {}
      = (hdrLines p).foldl hStep {} := by
    rw [List.foldl_append, List.foldl_cons, hStep_unknown _ extra hunk,
      ← List.foldl_append, List.take_append_drop]
  rw [hfold, hdr_fold p]
  exact parseAfterHdr_serialized p hp

/-! ## Filesystem model

A flat association list from paths to file contents.  Reads see the most
recent write; writeFile, unlink and rename are each one atomic effect,
matching the all-or-nothing rename guarantee the store relies on. -/

/-- The filesystem state. -/
def FS : Type := List (String × String)

/-- Read a file (none when absent). -/
def fsRead : FS → String → Option String
  | [], _ => none
  | (q, c) :: rest, p => if p = q then some c else fsRead rest p

/-- Write a file (create or atomically replace its content). -/
def fsWrite (fs : FS) (p c : String) : FS := (p, c) :: fs

/-- Remove a file. -/
def fsErase (fs : FS) (p : String) : FS :=
  fs.filter (fun e => !(e.1 = p))

theorem fsRead_write_same (fs : FS) (p c : String) :
    fsRead (fsWrite fs p c) p = some c := by
  simp [fsWrite, fsRead]

theorem fsRead_write_other (fs : FS) (p c q : String) (h : q ≠ p) :
    fsRead (fsWrite fs p c) q = fsRead fs q := by
  simp [fsWrite, fsRead, h]

theorem fsRead_erase_same (fs : FS) (p : String) :
    fsRead (fsErase fs p) p = none := by
  induction fs with
  | nil => rfl
  | cons e rest ih =>
    rcases e with ⟨q, c⟩
    by_cases he : q = p
    · simpa [fsErase, List.filter_cons, he] using ih
    · have hpq : ¬ p = q := fun hh => he hh.symm
      simpa [fsErase, List.filter_cons, he, fsRead, hpq] using ih

theorem fsRead_erase_other (fs : FS) (p q : String) (h : q ≠ p) :
    fsRead (fsErase fs p) q = fsRead fs q := by
  induction fs with
  | nil => rfl
  | cons e rest ih =>
    rcases e with ⟨r, c⟩
    by_cases he : r = p
    · simpa [fsErase, List.filter_cons, he, fsRead, h] using ih
    · by_cases hq : q = r
      · simp [fsErase, List.filter_cons, he, fsRead, hq]
      · simpa [fsErase, List.filter_cons, he, fsRead, hq] using ih

/-! ## The update protocol

Transcribed from updatePlan in README.md (File Operations):

* read and parse the plan file, remember expectedVersion;
* apply the updater, then increment version and refresh updated_at;
* write the new document to a temporary path;
* re-read and parse the plan file;  if its version differs from
  expectedVersion, unlink the temporary file and raise a conflict error;
* otherwise rename the temporary file onto the plan path (atomic).

Each awaited filesystem operation is one atomic step; the steps of
concurrent calls may interleave, which is exactly how Node schedules the
continuations of the awaited fs promises. -/

/-- Outcome of an updatePlan call. -/
inductive UpdResult
  | ok (p : Plan)
  | conflict (expected found : Nat)
  | notFound
  | ioError
deriving DecidableEq, Repr

/-- The continuation state of an updatePlan call between its atomic
filesystem effects. -/
inductive UpdState
  | start
  | toWriteTmp (expected : Nat) (newPlan : Plan)
  | toReRead (expected : Nat) (newPlan : Plan)
  | toUnlink (r : UpdResult)
  | toRename (newPlan : Plan)
  | done (r : UpdResult)
deriving DecidableEq, Repr

/-- The updater followed by the version increment and the updated_at
refresh, exactly as updatePlan applies them. -/
def applyMut (updater : Plan → Plan) (now : String) (p : Plan) : Plan :=
  let q := updater p
  { q with version := q.version + 1, updated_at := now }

/-- One atomic step of an updatePlan call on the shared filesystem. -/
def updStep (pp tp : String) (updater : Plan → Plan) (now : String) :
    UpdState × FS → UpdState × FS
  | (.start, fs) =>
    match fsRead fs pp with
    | none => (.done .notFound, fs)
    | some c =>
      match parsePlan c with
      | none => (.done .ioError, fs)
      | some p => (.toWriteTmp p.version (applyMut updater now p), fs)
  | (.toWriteTmp e q, fs) => (.toReRead e q, fsWrite fs tp (serializePlan q))
  | (.toReRead e q, fs) =>
    match fsRead fs pp with
    | none => (.done .ioError, fs)
    | some c =>
      match parsePlan c with
      | none => (.done .ioError, fs)
      | some cur =>
        if cur.version = e then (.toRename q, fs)
        else (.toUnlink (.conflict e cur.version), fs)
  | (.toUnlink r, fs) => (.done r, fsErase fs tp)
  | (.toRename q, fs) =>
    match fsRead fs tp with
    | none => (.done .ioError, fs)
    | some t => (.done (.ok q), fsWrite (fsErase fs tp) pp t)
  | (.done r, fs) => (.done r, fs)

/-- Run k atomic steps of one call with no interference. -/
def updRun (pp tp : String) (updater : Plan → Plan) (now : String) :
    Nat → UpdState × FS → UpdState × FS
  | 0, s => s
  | k + 1, s => updRun pp tp updater now k (updStep pp tp updater now s)

/-- Extract the result of a finished run. -/
def updResultOf : UpdState × FS → UpdResult
  | (.done r, _) => r
  | _ => .ioError

/-- A complete updatePlan call running alone (its four filesystem
effects back to back). -/
def updateSeq (pp tp : String) (updater : Plan → Plan) (now : String) (fs : FS) :
    UpdResult × FS :=
  (updResultOf (updRun pp tp updater now 4 (.start, fs)),
   (updRun pp tp updater now 4 (.start, fs)).2)

theorem updRun_succ (pp tp : String) (updater : Plan → Plan) (now : String)
    (k : Nat) (s : UpdState × FS) :
    updRun pp tp updater now (k + 1) s
      = updRun pp tp updater now k (updStep pp tp updater now s) := rfl

theorem updRun_zero (pp tp : String) (updater : Plan → Plan) (now : String)
    (s : UpdState × FS) : updRun pp tp updater now 0 s = s := rfl

/-! ## Two concurrent update calls

Two updatePlan invocations on the same plan path, each with its own
temporary path and mutator, interleaved by a schedule. -/

structure Sys2 where
  a : UpdState
  b : UpdState
  fs : FS

/-- Let one of the two calls perform its next atomic step. -/
def sysStep (pp tpA tpB : String) (mutA mutB : Plan → Plan) (nowA nowB : String)
    (s : Sys2) (who : Bool) : Sys2 :=
  if who then
    let r := updStep pp tpA mutA nowA (s.a, s.fs)
    { s with a := r.1, fs := r.2 }
  else
    let r := updStep pp tpB mutB nowB (s.b, s.fs)
    { s with b := r.1, fs := r.2 }

/-- Run a schedule (true lets call A step, false call B). -/
def sysRun (pp tpA tpB : String) (mutA mutB : Plan → Plan) (nowA nowB : String)
    (sched : List Bool) (s : Sys2) : Sys2 :=
  sched.foldl (sysStep pp tpA tpB mutA mutB nowA nowB) s

/-! ## The plan store

Modelled from the spec: src/persistence/plan-store.ts is not part of the
source tree.  The store operations below follow the spec (section 4.1,
4.2) and the behaviour pinned by the unit tests
(src/__tests__/unit/plan-crud.test.ts): create assigns a fresh id, sets
status proposed, version 1 and the timestamps, and writes the file; the
lifecycle operations are guarded update calls. -/

/-- The id to file path mapping: one file per plan under the plan
directory. -/
def pathOf (id : String) : String :=
  String.mk ((".pi/plans/" : String).data ++ id.data ++ (".md" : String).data)

/-- A fresh plan id: collision resistance is modelled by deriving the id
injectively from the number of plans created so far. -/
def freshIdStr (n : Nat) : String :=
  String.mk ('P' :: 'L' :: 'A' :: 'N' :: '-' :: List.replicate n 'x')

theorem freshIdStr_inj (m n : Nat) (h : freshIdStr m = freshIdStr n) : m = n := by
  have hd := congrArg String.data h
  have hlen := congrArg List.length hd
  simpa [freshIdStr] using hlen

theorem pathOf_inj (a b : String) (h : pathOf a = pathOf b) : a = b := by
  have hd := congrArg String.data h
  have h1 : (".pi/plans/" : String).data ++ a.data ++ (".md" : String).data
      = (".pi/plans/" : String).data ++ b.data ++ (".md" : String).data := hd
  have h2 := List.append_cancel_right h1
  have h3 := List.append_cancel_left h2
  have h4 := congrArg String.mk h3
  simpa [mk_data] using h4

/-- A draft as submitted to create. -/
structure Draft where
  title : String
  steps : List PlanStep
  context : Option String
  tools_required : List String

/-- The store state: the id counter and the filesystem. -/
structure StoreSt where
  nextId : Nat
  fs : FS

/-- The plan value a create call builds for the n-th fresh id. -/
def createdPlan (d : Draft) (now : String) (n : Nat) : Plan :=
  { id := freshIdStr n, title := d.title, status := .proposed, version := 1,
    created_at := now, updated_at := now, planner_model := none,
    tools_required := d.tools_required, executor_model := none,
    execution_session := none, execution_started_at := none,
    execution_ended_at := none, result_summary := none,
    steps := d.steps, context := d.context, body := none }

/-- create(draft): fresh id, status proposed, version 1, timestamps set,
file written (spec section 4.1, pinned by the create unit tests). -/
def createPlan (d : Draft) (now : String) (st : StoreSt) : Plan × StoreSt :=
  (createdPlan d now st.nextId,
   ⟨st.nextId + 1, fsWrite st.fs (pathOf (freshIdStr st.nextId))
      (serializePlan (createdPlan d now st.nextId))⟩)

theorem createPlan_fst (d : Draft) (now : String) (st : StoreSt) :
    (createPlan d now st).1 = createdPlan d now st.nextId := rfl

theorem createPlan_snd (d : Draft) (now : String) (st : StoreSt) :
    (createPlan d now st).2
      = ⟨st.nextId + 1, fsWrite st.fs (pathOf (freshIdStr st.nextId))
          (serializePlan (createdPlan d now st.nextId))⟩ := rfl

/-- A sequence of create calls. -/
def runCreates : List (Draft × String) → StoreSt → List Plan × StoreSt
  | [], st => ([], st)
  | (d, now) :: rest, st =>
    let r := createPlan d now st
    let rr := runCreates rest r.2
    (r.1 :: rr.1, rr.2)

/-! ### Lifecycle operations (spec section 4.2) -/

/-- The store error taxonomy (spec section 7). -/
inductive StoreErr
  | notFoundErr
  | versionConflict (expected found : Nat)
  | illegalTransition (fromStatus : PlanStatus)
  | ioFailure
deriving DecidableEq, Repr

/-- The six named lifecycle operations. -/
inductive LifeOp
  | approve
  | reject (feedback : Option String)
  | markExecuting
  | markCompleted (summary : String)
  | markFailed (reason : String)
  | cancel
deriving DecidableEq, Repr

/-- The transition guards of spec section 4.2: approve and reject
require proposed, markExecuting requires approved, markCompleted and
markFailed require executing, cancel requires a non-terminal status. -/
def opGuard : LifeOp → PlanStatus → Bool
  | .approve, st => st = .proposed
  | .reject _, st => st = .proposed
  | .markExecuting, st => st = .approved
  | .markCompleted _, st => st = .executing
  | .markFailed _, st => st = .executing
  | .cancel, st =>
    !(st = .completed || st = .failed || st = .rejected || st = .cancelled)

/-- The field mutation of each lifecycle operation (spec section 4.2):
reject appends the feedback to the body, markExecuting stamps
execution_started_at, the terminal operations stamp execution_ended_at
and the result summary. -/
def opMut (o : LifeOp) (now : String) : Plan → Plan :=
  match o with
  | .approve => fun p => { p with status := .approved }
  | .reject fb => fun p =>
    { p with
      status := .rejected
      body := some (String.mk ((optStr p.body).data ++ (optStr fb).data)) }
  | .markExecuting => fun p =>
    { p with status := .executing, execution_started_at := some now }
  | .markCompleted s => fun p =>
    { p with
      status := .completed
      execution_ended_at := some now
      result_summary := some s }
  | .markFailed r => fun p =>
    { p with
      status := .failed
      execution_ended_at := some now
      result_summary := some r }
  | .cancel => fun p => { p with status := .cancelled }

/-- Result of a lifecycle operation. -/
inductive OpResult
  | ok (p : Plan)
  | error (e : StoreErr)
deriving DecidableEq, Repr

/-- A lifecycle operation: one guarded update call.  The guard failing
means the transition is rejected and no write occurs (spec section 4.2). -/
def lifecycleOp (o : LifeOp) (pp tp : String) (now : String) (fs : FS) :
    OpResult × FS :=
  match fsRead fs pp with
  | none => (.error .notFoundErr, fs)
  | some c =>
    match parsePlan c with
    | none => (.error .ioFailure, fs)
    | some p =>
      if opGuard o p.status then
        match updateSeq pp tp (opMut o now) now fs with
        | (.ok q, fs') => (.ok q, fs')
        | (.conflict e f, fs') => (.error (.versionConflict e f), fs')
        | (.notFound, fs') => (.error .notFoundErr, fs')
        | (.ioError, fs') => (.error .ioFailure, fs')
      else (.error (.illegalTransition p.status), fs)

/-- The stalled commit of the session_start handler
(src/src/index.ts line 334): a plain update whose mutator sets the
status to stalled, with no guard of its own. -/
def markStalledRaw (pp tp now : String) (fs : FS) : UpdResult × FS :=
  updateSeq pp tp (fun p => { p with status := .stalled }) now fs

/-! ## Preflight validation

Modelled from the spec (section 4.5): src/executor/preflight.ts is not
part of the source tree.  Fails closed on a version mismatch or a
missing tool; performs no mutation. -/

inductive PreflightResult
  | ok
  | staleVersion (expected found : Nat)
  | missingTool (tool : String)
deriving DecidableEq, Repr

def validatePreflight (plan : Plan) (expected : Nat) (avail : List String) :
    PreflightResult :=
  if plan.version ≠ expected then .staleVersion expected plan.version
  else
    match plan.tools_required.find? (fun t => !avail.contains t) with
    | some t => .missingTool t
    | none => .ok

/-- The opening of executePlan (src/src/executor/runner.ts lines 39-51):
run the preflight with the plan's own version as the expected one;
return the failure before any mutation, otherwise mark the plan
executing. -/
def executePlanStart (plan : Plan) (avail : List String) (pp tp now : String)
    (fs : FS) : Option PreflightResult × FS :=
  match validatePreflight plan plan.version avail with
  | .ok =>
    match lifecycleOp .markExecuting pp tp now fs with
    | (_, fs') => (none, fs')
  | r => (some r, fs)

/-! ## Stalled-plan detection

Modelled from the spec (section 4.4): src/executor/stalled.ts is not
part of the source tree.  The detector classifies executing plans by
elapsed time and performs no write; the caller commits the transition
(src/src/index.ts lines 330-337). -/

/-- findStalledPlans: keep the plans whose execution started more than
the timeout ago.  Time is measured in minutes through the timestamp
decoding function toMin. -/
def findStalledPlans (plans : List Plan) (timeoutMin : Nat) (nowMin : Nat)
    (toMin : String → Nat) : List Plan :=
  plans.filter (fun p =>
    match p.execution_started_at with
    | none => false
    | some s => nowMin - toMin s > timeoutMin)

/-! ## The plan_propose tool

From src/src/tools/index.ts: tools_required is the JavaScript set of the
steps' tool names, in insertion order. -/

/-- The fold JavaScript's new Set(...) performs: keep the first
occurrence of each element, in order. -/
def jsSetDedup (l : List String) : List String :=
  l.foldl (fun acc t => if t ∈ acc then acc else acc ++ [t]) []

/-- Specification-side dedup: keep the head, drop its later duplicates,
recurse. -/
def specDedup : List String → List String
  | [] => []
  | t :: ts => t :: specDedup (ts.filter (fun x => x ≠ t))
termination_by l => l.length
decreasing_by
  simp only [List.length_cons]
  exact Nat.lt_succ_of_le (List.length_filter_le _ _)

/-- plan_propose (src/src/tools/index.ts lines 37-57): deduplicate the
steps' tools and create the plan from the submitted draft. -/
def planPropose (title : String) (steps : List PlanStep) (ctx : Option String)
    (now : String) (st : StoreSt) : Plan × StoreSt :=
  createPlan ⟨title, steps, ctx, jsSetDedup (steps.map PlanStep.tool)⟩ now st

/-! ## Supporting computation lemmas for the update protocol -/

theorem updStep_start (pp tp : String) (updater : Plan → Plan) (now : String)
    (fs : FS) (c : String) (p : Plan)
    (hread : fsRead fs pp = some c) (hparse : parsePlan c = some p) :
    updStep pp tp updater now (.start, fs)
      = (.toWriteTmp p.version (applyMut updater now p), fs) := by
  simp [updStep, hread, hparse]

theorem updStep_writeTmp (pp tp : String) (updater : Plan → Plan) (now : String)
    (fs : FS) (e : Nat) (q : Plan) :
    updStep pp tp updater now (.toWriteTmp e q, fs)
      = (.toReRead e q, fsWrite fs tp (serializePlan q)) := rfl

theorem updStep_reRead (pp tp : String) (updater : Plan → Plan) (now : String)
    (fs : FS) (e : Nat) (q : Plan) (c : String) (cur : Plan)
    (hread : fsRead fs pp = some c) (hparse : parsePlan c = some cur) :
    updStep pp tp updater now (.toReRead e q, fs)
      = (if cur.version = e then (.toRename q, fs)
         else (.toUnlink (.conflict e cur.version), fs)) := by
  simp [updStep, hread, hparse]

theorem updStep_unlink (pp tp : String) (updater : Plan → Plan) (now : String)
    (fs : FS) (r : UpdResult) :
    updStep pp tp updater now (.toUnlink r, fs) = (.done r, fsErase fs tp) := rfl

theorem updStep_rename (pp tp : String) (updater : Plan → Plan) (now : String)
    (fs : FS) (q : Plan) (t : String) (hread : fsRead fs tp = some t) :
    updStep pp tp updater now (.toRename q, fs)
      = (.done (.ok q), fsWrite (fsErase fs tp) pp t) := by
  simp [updStep, hread]

/-- A successful uncontended update: commits the mutated plan at the
incremented version, atomically replacing the plan path. -/
theorem updateSeq_success (pp tp : String) (hpt : pp ≠ tp)
    (updater : Plan → Plan) (now : String) (fs : FS) (p0 : Plan)
    (hvalid : ValidPlan p0)
    (hread : fsRead fs pp = some (serializePlan p0)) :
    updateSeq pp tp updater now fs
      = (.ok (applyMut updater now p0),
         fsWrite (fsErase (fsWrite fs tp (serializePlan (applyMut updater now p0))) tp) pp
           (serializePlan (applyMut updater now p0))) := by
  have hparse := parse_serialize p0 hvalid
  unfold updateSeq
  rw [updRun_succ, updStep_start pp tp updater now fs _ p0 hread hparse,
    updRun_succ, updStep_writeTmp,
    updRun_succ, updStep_reRead pp tp updater now _ p0.version (applyMut updater now p0)
      (serializePlan p0) p0 (by rw [fsRead_write_other _ _ _ _ hpt]; exact hread) hparse,
    if_pos rfl,
    updRun_succ, updStep_rename pp tp updater now _ _ (serializePlan (applyMut updater now p0))
      (fsRead_write_same _ _ _),
    updRun_zero]
  rfl

/-- The committed document is readable back at the plan path. -/
theorem updateSeq_success_read (pp tp : String) (hpt : pp ≠ tp)
    (updater : Plan → Plan) (now : String) (fs : FS) (p0 : Plan)
    (hvalid : ValidPlan p0)
    (hread : fsRead fs pp = some (serializePlan p0)) :
    fsRead (updateSeq pp tp updater now fs).2 pp
      = some (serializePlan (applyMut updater now p0)) := by
  rw [updateSeq_success pp tp hpt updater now fs p0 hvalid hread]
  exact fsRead_write_same _ _ _

/-! ## Claim theorems -/

/-- C1.  For every update call on an existing plan id: the call reads
the version at the start, writes the fully serialized new document
(mutated, version incremented) to its temporary path, and re-reads the
plan path immediately before committing.  If the version found then
differs from the one read at the start, the call raises a conflict
error — an error distinct from not-found and from the I/O failure — and
does not commit: its only remaining effect is deleting its temporary
file, so the plan file is exactly as it was; otherwise it atomically
replaces the plan path with the fully serialized new document.
The re-read state fs2 is arbitrary (a concurrent writer may have
changed the plan file); only the call's own temporary file must be
intact. -/
theorem updatePlan_conflict_check
    (pp tp : String) (hpt : pp ≠ tp)
    (updater : Plan → Plan) (now : String)
    (fs0 : FS) (doc0 : String) (p0 : Plan)
    (hread : fsRead fs0 pp = some doc0)
    (hparse : parsePlan doc0 = some p0) :
    updRun pp tp updater now 2 (.start, fs0)
      = (.toReRead p0.version (applyMut updater now p0),
         fsWrite fs0 tp (serializePlan (applyMut updater now p0)))
    ∧ (∀ (fs2 : FS) (c2 : String) (cur : Plan),
        fsRead fs2 pp = some c2 → parsePlan c2 = some cur →
        fsRead fs2 tp = some (serializePlan (applyMut updater now p0)) →
        (cur.version ≠ p0.version →
          updRun pp tp updater now 2
              (.toReRead p0.version (applyMut updater now p0), fs2)
            = (.done (.conflict p0.version cur.version), fsErase fs2 tp)
          ∧ fsRead (fsErase fs2 tp) pp = some c2)
        ∧ (cur.version = p0.version →
          updRun pp tp updater now 2
              (.toReRead p0.version (applyMut updater now p0), fs2)
            = (.done (.ok (applyMut updater now p0)),
               fsWrite (fsErase fs2 tp) pp (serializePlan (applyMut updater now p0)))
          ∧ fsRead (fsWrite (fsErase fs2 tp) pp
              (serializePlan (applyMut updater now p0))) pp
            = some (serializePlan (applyMut updater now p0))))
    ∧ (∀ e v, UpdResult.conflict e v ≠ .notFound ∧ UpdResult.conflict e v ≠ .ioError) := by
  refine ⟨?part1, ?part2, ?part3⟩
  case part1 =>
    rw [updRun_succ, updStep_start pp tp updater now fs0 doc0 p0 hread hparse,
      updRun_succ, updStep_writeTmp, updRun_zero]
  case part2 =>
    intro fs2 c2 cur hc2 hcur htmp
    constructor
    · intro hne
      rw [updRun_succ, updStep_reRead pp tp updater now fs2 p0.version _ c2 cur hc2 hcur,
        if_neg hne, updRun_succ, updStep_unlink, updRun_zero]
      refine ⟨rfl, ?_⟩
      rw [fsRead_erase_other fs2 tp pp hpt]
      exact hc2
    · intro heq
      rw [updRun_succ, updStep_reRead pp tp updater now fs2 p0.version _ c2 cur hc2 hcur,
        if_pos heq, updRun_succ, updStep_rename pp tp updater now fs2 _ _ htmp,
        updRun_zero]
      exact ⟨rfl, fsRead_write_same _ _ _⟩
  case part3 =>
    intro e v
    exact ⟨fun h => UpdResult.noConfusion h, fun h => UpdResult.noConfusion h⟩

/-- C3.  If an update call is interrupted (or an I/O failure stops it)
at any point before the final atomic replace — in particular after the
temporary file was written — the plan file still holds the pre-attempt
document, which parses back to the pre-attempt plan.  k counts the
atomic filesystem effects performed; the replace is the fourth. -/
theorem update_interrupted_preserves_plan
    (pp tp : String) (hpt : pp ≠ tp)
    (updater : Plan → Plan) (now : String) (fs0 : FS) (p0 : Plan)
    (hvalid : ValidPlan p0)
    (hread : fsRead fs0 pp = some (serializePlan p0))
    (k : Nat) (hk : k ≤ 3) :
    fsRead (updRun pp tp updater now k (.start, fs0)).2 pp = some (serializePlan p0)
    ∧ parsePlan (serializePlan p0) = some p0 := by
  have hparse := parse_serialize p0 hvalid
  refine ⟨?_, hparse⟩
  have h1 : updStep pp tp updater now (.start, fs0)
      = (.toWriteTmp p0.version (applyMut updater now p0), fs0) :=
    updStep_start pp tp updater now fs0 _ p0 hread hparse
  have h2 : updStep pp tp updater now
      (.toWriteTmp p0.version (applyMut updater now p0), fs0)
      = (.toReRead p0.version (applyMut updater now p0),
         fsWrite fs0 tp (serializePlan (applyMut updater now p0))) :=
    updStep_writeTmp pp tp updater now fs0 _ _
  have hread1 : fsRead (fsWrite fs0 tp (serializePlan (applyMut updater now p0))) pp
      = some (serializePlan p0) := by
    rw [fsRead_write_other _ _ _ _ hpt]
    exact hread
  have h3 : updStep pp tp updater now
      (.toReRead p0.version (applyMut updater now p0),
       fsWrite fs0 tp (serializePlan (applyMut updater now p0)))
      = (.toRename (applyMut updater now p0),
         fsWrite fs0 tp (serializePlan (applyMut updater now p0))) := by
    rw [updStep_reRead pp tp updater now _ p0.version _ (serializePlan p0) p0 hread1 hparse]
    rw [if_pos rfl]
  interval_cases k
  · exact hread
  · rw [updRun_succ, h1, updRun_zero]
    exact hread
  · rw [updRun_succ, h1, updRun_succ, h2, updRun_zero]
    exact hread1
  · rw [updRun_succ, h1, updRun_succ, h2, updRun_succ, h3, updRun_zero]
    exact hread1

/-! ## Concrete inputs for witnesses and counterexamples -/

/-- A minimal valid plan at version 1. -/
def wPlan : Plan :=
  { id := "i", title := "t", status := .approved, version := 1,
    created_at := "c", updated_at := "c", planner_model := none,
    tools_required := [], executor_model := none, execution_session := none,
    execution_started_at := none, execution_ended_at := none,
    result_summary := none, steps := [], context := none, body := none }

/-- The plan file of wPlan on disk at path p. -/
def wFs : FS := fsWrite [] "p" (serializePlan wPlan)

def wMutA : Plan → Plan := fun p => { p with title := "A" }

def wMutB : Plan → Plan := fun p => { p with title := "B" }

/-- The racing schedule: call A performs read, write-tmp and re-read
(the version check passes), then call B performs read, write-tmp and
re-read (the version check passes again, A has not renamed yet), then A
renames, then B renames.  Every boundary is an awaited filesystem
operation of the README updatePlan, so this interleaving is schedulable
by the Node runtime. -/
def raceSched : List Bool := [true, true, true, false, false, false, true, false]

/-- The race of two updatePlan calls both starting from version 1. -/
def raceRun : Sys2 :=
  sysRun "p" "ta" "tb" wMutA wMutB "n" "n" raceSched ⟨.start, .start, wFs⟩

/-- C2.  Counter-evidence for the optimistic-lock guarantee: under the
raceSched interleaving both concurrent update calls starting from
version 1 commit and report success — neither receives a version
conflict — and the second rename silently overwrites the first, so the
final file holds only call B's mutation at version 2 and call A's
committed content is lost.  The claim (and spec section 8) says exactly
one of them commits and the other receives VersionConflict; the code's
version check and its rename are separate awaited filesystem steps, so
both checks can pass before either rename. -/
theorem concurrent_updates_both_commit :
    raceRun.a = .done (.ok (applyMut wMutA "n" wPlan))
    ∧ raceRun.b = .done (.ok (applyMut wMutB "n" wPlan))
    ∧ (applyMut wMutA "n" wPlan).version = 2
    ∧ (applyMut wMutB "n" wPlan).version = 2
    ∧ fsRead raceRun.fs "p" = some (serializePlan (applyMut wMutB "n" wPlan))
    ∧ serializePlan (applyMut wMutB "n" wPlan)
      ≠ serializePlan (applyMut wMutA "n" wPlan) := by
  decide

/-- C4 counterexample.  On the same racing interleaving, two update
calls on the same plan id succeed, yet the resulting on-disk version is
2 and not the initial version 1 plus 2, and the two committed writes
share version number 2. -/
theorem version_monotonicity_concurrent_cex :
    raceRun.a = .done (.ok (applyMut wMutA "n" wPlan))
    ∧ raceRun.b = .done (.ok (applyMut wMutB "n" wPlan))
    ∧ wPlan.version = 1
    ∧ fsRead raceRun.fs "p" = some (serializePlan (applyMut wMutB "n" wPlan))
    ∧ parsePlan (serializePlan (applyMut wMutB "n" wPlan))
      = some (applyMut wMutB "n" wPlan)
    ∧ (applyMut wMutB "n" wPlan).version = 2
    ∧ (applyMut wMutA "n" wPlan).version = (applyMut wMutB "n" wPlan).version
    ∧ (2 : Nat) ≠ 1 + 2 := by
  decide

/-- An on-disk state at the re-read point of a conflicted update: the
call wrote its temporary file to t, but a concurrent writer committed
wMutB meanwhile, so the plan file is at version 2. -/
def wConflictFs : FS :=
  fsWrite (fsWrite wFs "t" (serializePlan (applyMut wMutA "n" wPlan))) "p"
    (serializePlan (applyMut wMutB "n" wPlan))

/-- Witness for C1: a concrete conflicted update.  The plan was at
version 1 when the call started; at the re-read the file holds version
2, so finishing the call yields the conflict error and only removes the
temporary file, leaving the concurrent writer's document in place. -/
theorem updatePlan_conflict_check_witness :
    ("p" : String) ≠ "t"
    ∧ fsRead wFs "p" = some (serializePlan wPlan)
    ∧ parsePlan (serializePlan wPlan) = some wPlan
    ∧ (applyMut wMutB "n" wPlan).version ≠ wPlan.version
    ∧ updRun "p" "t" wMutA "n" 2
        (.toReRead wPlan.version (applyMut wMutA "n" wPlan), wConflictFs)
      = (.done (.conflict wPlan.version (applyMut wMutB "n" wPlan).version),
         fsErase wConflictFs "t")
    ∧ fsRead (fsErase wConflictFs "t") "p"
      = some (serializePlan (applyMut wMutB "n" wPlan)) := by
  refine ⟨by decide, by decide, by decide, by decide, ?_, ?_⟩
  · exact ((updatePlan_conflict_check "p" "t" (by decide) wMutA "n" wFs
      (serializePlan wPlan) wPlan (by decide) (by decide)).2.1 wConflictFs
      (serializePlan (applyMut wMutB "n" wPlan)) (applyMut wMutB "n" wPlan)
      (by decide) (by decide) (by decide)).1 (by decide) |>.1
  · exact ((updatePlan_conflict_check "p" "t" (by decide) wMutA "n" wFs
      (serializePlan wPlan) wPlan (by decide) (by decide)).2.1 wConflictFs
      (serializePlan (applyMut wMutB "n" wPlan)) (applyMut wMutB "n" wPlan)
      (by decide) (by decide) (by decide)).1 (by decide) |>.2

/-- Witness for C3: interrupting the concrete update after its
temporary-file write (two effects performed) leaves the plan file with
the original parseable document. -/
theorem update_interrupted_preserves_plan_witness :
    ("p" : String) ≠ "t"
    ∧ ValidPlan wPlan
    ∧ fsRead wFs "p" = some (serializePlan wPlan)
    ∧ (2 : Nat) ≤ 3
    ∧ fsRead (updRun "p" "t" wMutA "n" 2 (.start, wFs)).2 "p"
      = some (serializePlan wPlan)
    ∧ parsePlan (serializePlan wPlan) = some wPlan :=
  ⟨by decide, by decide, by decide, by decide,
   (update_interrupted_preserves_plan "p" "t" (by decide) wMutA "n" wFs wPlan
     (by decide) (by decide) 2 (by decide)).1,
   (update_interrupted_preserves_plan "p" "t" (by decide) wMutA "n" wFs wPlan
     (by decide) (by decide) 2 (by decide)).2⟩

/-- wPlan in a terminal (completed) status. -/
def wDonePlan : Plan := { wPlan with status := .completed }

def wDoneFs : FS := fsWrite [] "p" (serializePlan wDonePlan)

/-- C5 counterexample.  The stalled transition is committed by the
session_start handler through the store's generic update with an
unguarded mutator (src/src/index.ts line 334).  Invoked on a plan in the
completed status — a (status, operation) pair outside the transition
table — it does not raise IllegalTransition: it commits, rewrites the
file and moves the plan to stalled at version 2. -/
theorem stalled_commit_unguarded_cex :
    wDonePlan.status = .completed
    ∧ (markStalledRaw "p" "t" "n" wDoneFs).1
      = .ok { wDonePlan with status := .stalled, version := 2, updated_at := "n" }
    ∧ fsRead (markStalledRaw "p" "t" "n" wDoneFs).2 "p"
      = some (serializePlan
          { wDonePlan with status := .stalled, version := 2, updated_at := "n" }) := by
  decide

/-- One update call of a sequential chain: its temporary path, its
mutator and its timestamp. -/
structure UpdCall where
  tmpPath : String
  updater : Plan → Plan
  now : String

/-- Run a chain of update calls one after the other (each completes
before the next starts), collecting their results. -/
def runUpdates (pp : String) : List UpdCall → FS → List UpdResult × FS
  | [], fs => ([], fs)
  | u :: rest, fs =>
    ((updateSeq pp u.tmpPath u.updater u.now fs).1 ::
       (runUpdates pp rest (updateSeq pp u.tmpPath u.updater u.now fs).2).1,
     (runUpdates pp rest (updateSeq pp u.tmpPath u.updater u.now fs).2).2)

/-- applyMut preserves validity when the mutator does and the timestamp
is newline-free. -/
theorem validPlan_applyMut (updater : Plan → Plan) (now : String) (p : Plan)
    (h : ValidPlan (updater p)) (hnow : '\n' ∉ now.data) :
    ValidPlan (applyMut updater now p) := by
  obtain ⟨h1, h2, h3, _, h5, h6, h7, h8, h9, h10, h11, h12, h13⟩ := h
  exact ⟨h1, h2, h3, hnow, h5, h6, h7, h8, h9, h10, h11, h12, h13⟩

/-- The behaviour of a sequential chain of successful updates: length,
final version, and the version committed by each call. -/
theorem runUpdates_spec (pp : String) (calls : List UpdCall) (fs0 : FS) (p0 : Plan)
    (hcalls : ∀ u ∈ calls, pp ≠ u.tmpPath ∧ '\n' ∉ u.now.data ∧
      ∀ q, ValidPlan q → ValidPlan (u.updater q) ∧ (u.updater q).version = q.version)
    (hvalid : ValidPlan p0)
    (hread : fsRead fs0 pp = some (serializePlan p0)) :
    (runUpdates pp calls fs0).1.length = calls.length
    ∧ (∃ pN, ValidPlan pN ∧ pN.version = p0.version + calls.length ∧
        fsRead (runUpdates pp calls fs0).2 pp = some (serializePlan pN))
    ∧ (∀ i, i < calls.length →
        ∃ q, (runUpdates pp calls fs0).1.get? i = some (.ok q)
          ∧ q.version = p0.version + (i + 1)) := by
  induction calls generalizing fs0 p0 with
  | nil =>
    refine ⟨rfl, ⟨p0, hvalid, by simp, hread⟩, ?_⟩
    intro i hi
    simp at hi
  | cons u rest ih =>
    obtain ⟨hpt, hnow, hmut⟩ := hcalls u (by simp)
    have hv1 := hmut p0 hvalid
    have hvalid1 : ValidPlan (applyMut u.updater u.now p0) :=
      validPlan_applyMut u.updater u.now p0 hv1.1 hnow
    have hver1 : (applyMut u.updater u.now p0).version = p0.version + 1 := by
      simp [applyMut, hv1.2]
    have hseq := updateSeq_success pp u.tmpPath hpt u.updater u.now fs0 p0 hvalid hread
    have hseqr := updateSeq_success_read pp u.tmpPath hpt u.updater u.now fs0 p0 hvalid hread
    have ihr := ih (updateSeq pp u.tmpPath u.updater u.now fs0).2
      (applyMut u.updater u.now p0)
      (fun v hv => hcalls v (by simp [hv])) hvalid1 hseqr
    rw [runUpdates]
    refine ⟨by simp [ihr.1], ?_, ?_⟩
    · obtain ⟨pN, hpN1, hpN2, hpN3⟩ := ihr.2.1
      refine ⟨pN, hpN1, ?_, hpN3⟩
      rw [hpN2, hver1]
      simp only [List.length_cons]
      omega
    · intro i hi
      cases i with
      | zero =>
        refine ⟨applyMut u.updater u.now p0, ?_, by rw [hver1]⟩
        have : (updateSeq pp u.tmpPath u.updater u.now fs0).1
            = .ok (applyMut u.updater u.now p0) := by
          rw [hseq]
        simp [this]
      | succ i' =>
        have hi' : i' < rest.length := by simpa using hi
        obtain ⟨q, hq1, hq2⟩ := ihr.2.2 i' hi'
        refine ⟨q, by simpa using hq1, ?_⟩
        rw [hq2, hver1]
        omega

/-- C4 (amended).  The version starts at 1 on creation, and each
successful update commits version plus one: after any sequential chain
of N successful update calls on the same plan id, the on-disk version is
the initial version plus N, the i-th call commits version initial+i+1,
and no two of the committed writes share a version number.  (For
overlapping concurrent calls this fails — see the counterexample — both
calls of a race can commit the same version.) -/
theorem version_monotonicity_sequential
    (pp : String) (calls : List UpdCall) (fs0 : FS) (p0 : Plan)
    (hcalls : ∀ u ∈ calls, pp ≠ u.tmpPath ∧ '\n' ∉ u.now.data ∧
      ∀ q, ValidPlan q → ValidPlan (u.updater q) ∧ (u.updater q).version = q.version)
    (hvalid : ValidPlan p0)
    (hread : fsRead fs0 pp = some (serializePlan p0)) :
    (∀ d now st, ((createPlan d now st).1).version = 1)
    ∧ (runUpdates pp calls fs0).1.length = calls.length
    ∧ (∃ pN, ValidPlan pN ∧ pN.version = p0.version + calls.length ∧
        fsRead (runUpdates pp calls fs0).2 pp = some (serializePlan pN))
    ∧ (∀ i, i < calls.length →
        ∃ q, (runUpdates pp calls fs0).1.get? i = some (.ok q)
          ∧ q.version = p0.version + (i + 1))
    ∧ (∀ i j qi qj, (runUpdates pp calls fs0).1.get? i = some (.ok qi) →
        (runUpdates pp calls fs0).1.get? j = some (.ok qj) →
        qi.version = qj.version → i = j) := by
  obtain ⟨hlen, hfinal, hvers⟩ := runUpdates_spec pp calls fs0 p0 hcalls hvalid hread
  refine ⟨fun d now st => rfl, hlen, hfinal, hvers, ?_⟩
  intro i j qi qj hqi hqj hv
  have hilen : i < calls.length := by
    obtain ⟨hlt, _⟩ := List.get?_eq_some.1 hqi
    rwa [hlen] at hlt
  have hjlen : j < calls.length := by
    obtain ⟨hlt, _⟩ := List.get?_eq_some.1 hqj
    rwa [hlen] at hlt
  obtain ⟨q1, hq1, hq1v⟩ := hvers i hilen
  obtain ⟨q2, hq2, hq2v⟩ := hvers j hjlen
  rw [hqi] at hq1
  rw [hqj] at hq2
  have e1 : qi = q1 := by simpa using hq1
  have e2 : qj = q2 := by simpa using hq2
  rw [e1, hq1v] at hv
  rw [e2, hq2v] at hv
  omega

/-- The two calls of the concrete sequential chain. -/
def wCalls : List UpdCall := [⟨"t1", wMutA, "n"⟩, ⟨"t2", wMutB, "m"⟩]

/-- Witness for C4: a chain of two sequential updates from version 1
commits versions 2 and 3 and ends with the file at version 3. -/
theorem version_monotonicity_sequential_witness :
    (∀ d now st, ((createPlan d now st).1).version = 1)
    ∧ (runUpdates "p" wCalls wFs).1.length = wCalls.length
    ∧ (∃ pN, ValidPlan pN ∧ pN.version = wPlan.version + wCalls.length ∧
        fsRead (runUpdates "p" wCalls wFs).2 "p" = some (serializePlan pN))
    ∧ (∀ i, i < wCalls.length →
        ∃ q, (runUpdates "p" wCalls wFs).1.get? i = some (.ok q)
          ∧ q.version = wPlan.version + (i + 1))
    ∧ (∀ i j qi qj, (runUpdates "p" wCalls wFs).1.get? i = some (.ok qi) →
        (runUpdates "p" wCalls wFs).1.get? j = some (.ok qj) →
        qi.version = qj.version → i = j) := by
  refine version_monotonicity_sequential "p" wCalls wFs wPlan ?_ (by decide) (by decide)
  intro u hu
  rcases List.mem_cons.1 hu with rfl | hu
  · refine ⟨by decide, by decide, ?_⟩
    intro q hq
    obtain ⟨ha, _, hc, hd, he, hf, hg, hh, hi, hj, hk, hm, hn⟩ := hq
    refine ⟨⟨ha, ?_, hc, hd, he, hf, hg, hh, hi, hj, hk, hm, hn⟩, rfl⟩
    show '\n' ∉ ("A" : String).data
    decide
  rcases List.mem_cons.1 hu with rfl | hu
  · refine ⟨by decide, by decide, ?_⟩
    intro q hq
    obtain ⟨ha, _, hc, hd, he, hf, hg, hh, hi, hj, hk, hm, hn⟩ := hq
    refine ⟨⟨ha, ?_, hc, hd, he, hf, hg, hh, hi, hj, hk, hm, hn⟩, rfl⟩
    show '\n' ∉ ("B" : String).data
    decide
  · simp at hu

/-- C5 (amended).  For every (status, operation) pair outside the
transition table of spec section 4.2, invoking one of the six named
lifecycle operations (approve, reject, markExecuting, markCompleted,
markFailed, cancel) on a plan in that status returns the
IllegalTransition error and performs no write: the filesystem — hence
the plan's status and version — is unchanged.  The stalled transition is
exempt: it is committed through the generic update with no guard (see
the counterexample), so status can also be set outside the guarded
operations. -/
theorem lifecycle_guard_completeness
    (o : LifeOp) (pp tp now : String) (fs : FS) (c : String) (p : Plan)
    (hread : fsRead fs pp = some c) (hparse : parsePlan c = some p)
    (hguard : opGuard o p.status = false) :
    lifecycleOp o pp tp now fs = (.error (.illegalTransition p.status), fs)
    ∧ fsRead (lifecycleOp o pp tp now fs).2 pp = some c := by
  have h : lifecycleOp o pp tp now fs = (.error (.illegalTransition p.status), fs) := by
    simp [lifecycleOp, hread, hparse, hguard]
  exact ⟨h, by rw [h]; exact hread⟩

/-- C6.  The preflight validator succeeds exactly when the plan's live
version equals the expected version and every required tool is in the
available inventory; and when it fails, executePlan returns the failure
before any state is mutated — the store is untouched and markExecuting
is never invoked. -/
theorem preflight_validation (plan : Plan) (expected : Nat) (avail : List String) :
    (validatePreflight plan expected avail = .ok ↔
      (plan.version = expected ∧ ∀ t ∈ plan.tools_required, t ∈ avail))
    ∧ (∀ (pp tp now : String) (fs : FS) (r : PreflightResult),
        validatePreflight plan plan.version avail = r → r ≠ .ok →
        executePlanStart plan avail pp tp now fs = (some r, fs)) := by
  constructor
  · unfold validatePreflight
    by_cases hv : plan.version ≠ expected
    · rw [if_pos hv]
      constructor
      · intro h
        exact absurd h (by simp)
      · intro ⟨h, _⟩
        exact absurd h hv
    · rw [if_neg hv]
      have hv' : plan.version = expected := by omega
      cases hf : plan.tools_required.find? (fun t => !avail.contains t) with
      | some t =>
        constructor
        · intro h
          exact absurd h (by simp)
        · intro ⟨_, hall⟩
          have := List.find?_some hf
          have hmem := List.mem_of_find?_eq_some hf
          have := hall t hmem
          simp_all
      | none =>
        constructor
        · intro _
          refine ⟨hv', ?_⟩
          intro t ht
          have := List.find?_eq_none.1 hf t ht
          simpa using this
        · intro _
          rfl
  · intro pp tp now fs r hr hne
    unfold executePlanStart
    rw [hr]
    cases r with
    | ok => exact absurd rfl hne
    | staleVersion e f => rfl
    | missingTool t => rfl

/-- A plan whose required tool is absent from the inventory. -/
def wToolPlan : Plan := { wPlan with tools_required := ["odoo"] }

/-- Witness for C6: the preflight fails with the missing-tool error for
a concrete plan and the execution opening returns it without touching
the store. -/
theorem preflight_validation_witness :
    (validatePreflight wToolPlan wToolPlan.version ["bash"] = .ok ↔
      (wToolPlan.version = wToolPlan.version ∧
        ∀ t ∈ wToolPlan.tools_required, t ∈ ["bash"]))
    ∧ validatePreflight wToolPlan wToolPlan.version ["bash"] = .missingTool "odoo"
    ∧ executePlanStart wToolPlan ["bash"] "p" "t" "n" wFs
      = (some (.missingTool "odoo"), wFs) :=
  ⟨(preflight_validation wToolPlan wToolPlan.version ["bash"]).1, by decide,
   (preflight_validation wToolPlan wToolPlan.version ["bash"]).2 "p" "t" "n" wFs
     (.missingTool "odoo") (by decide) (by decide)⟩

/-- C8.  The codec round trip: parsing the serialized document of any
valid plan restores it field-for-field (steps with and without targets,
optional fields and context included), and parsing tolerates an unknown
extra header field inserted anywhere in the header block by ignoring
it. -/
theorem plan_codec_round_trip (p : Plan) (hp : ValidPlan p) :
    parsePlan (serializePlan p) = some p
    ∧ (∀ k extra, '\n' ∉ extra.data → extra ≠ "## Steps" →
        (∀ kv, splitColon extra.data = some kv → keyIndex (String.mk kv.1) = none) →
        parsePlan (serializeWithExtra p k extra) = some p) :=
  ⟨parse_serialize p hp,
   fun k extra h1 h2 h3 => parse_tolerates_unknown p hp k extra h1 h2 h3⟩

/-- The plan of the serialization unit test: optional models, two tools,
a step with a target and one without, and a context. -/
def wRichPlan : Plan :=
  { id := "PLAN-deadbeef", title := "Send invoice reminder", status := .proposed,
    version := 1, created_at := "2026-02-11T12:00:00.000Z",
    updated_at := "2026-02-11T12:00:00.000Z",
    planner_model := some "claude-sonnet-4-5",
    tools_required := ["odoo-toolbox", "go-easy"],
    executor_model := some "claude-haiku-4-5", execution_session := none,
    execution_started_at := none, execution_ended_at := none,
    result_summary := none,
    steps := [⟨"Read invoice", "odoo-toolbox", "read", some "INV-2024-0847"⟩,
              ⟨"Send reminder email", "go-easy", "send", none⟩],
    context := some "Invoice is overdue by 30 days.", body := none }

/-- Witness for C8: the test plan round trips, also with an unknown
header field inserted. -/
theorem plan_codec_round_trip_witness :
    ValidPlan wRichPlan
    ∧ parsePlan (serializePlan wRichPlan) = some wRichPlan
    ∧ parsePlan (serializeWithExtra wRichPlan 2 "x_custom: v") = some wRichPlan :=
  ⟨by decide,
   (plan_codec_round_trip wRichPlan (by decide)).1,
   (plan_codec_round_trip wRichPlan (by decide)).2 2 "x_custom: v" (by decide) (by decide)
     (fun kv h => by
        have hc : splitColon ("x_custom: v" : String).data
            = some (("x_custom" : String).data, ("v" : String).data) := by decide
        rw [hc] at h
        injection h with h2
        rw [← h2]
        decide)⟩

/-- C7.  The stalled-plan detector classifies a plan as stalled exactly
when the elapsed time since execution_started_at exceeds the timeout: a
plan started timeout+1 minutes before now is classified stalled, one
started timeout-1 minutes before now is not.  The detector performs no
write: it is a pure classification returning a sublist of its input —
committing the transition is the caller's update call. -/
theorem stalled_detector_classification (plans : List Plan)
    (timeoutMin nowMin : Nat) (toMin : String → Nat) :
    (∀ p, p ∈ findStalledPlans plans timeoutMin nowMin toMin ↔
      (p ∈ plans ∧ ∃ s, p.execution_started_at = some s
        ∧ nowMin - toMin s > timeoutMin))
    ∧ List.Sublist (findStalledPlans plans timeoutMin nowMin toMin) plans
    ∧ (∀ p s, p ∈ plans → p.execution_started_at = some s →
        nowMin ≥ timeoutMin + 1 → toMin s = nowMin - timeoutMin - 1 →
        p ∈ findStalledPlans plans timeoutMin nowMin toMin)
    ∧ (∀ p s, p ∈ plans → p.execution_started_at = some s →
        toMin s = nowMin - timeoutMin + 1 →
        p ∉ findStalledPlans plans timeoutMin nowMin toMin) := by
  have hmem : ∀ p, p ∈ findStalledPlans plans timeoutMin nowMin toMin ↔
      (p ∈ plans ∧ ∃ s, p.execution_started_at = some s
        ∧ nowMin - toMin s > timeoutMin) := by
    intro p
    unfold findStalledPlans
    rw [List.mem_filter]
    constructor
    · intro ⟨hp, hcond⟩
      refine ⟨hp, ?_⟩
      cases hs : p.execution_started_at with
      | none => rw [hs] at hcond; simp at hcond
      | some s =>
        rw [hs] at hcond
        exact ⟨s, rfl, by simpa using hcond⟩
    · intro ⟨hp, s, hs, hgt⟩
      refine ⟨hp, ?_⟩
      rw [hs]
      simpa using hgt
  refine ⟨hmem, List.filter_sublist plans, ?_, ?_⟩
  · intro p s hp hs hnow htime
    refine (hmem p).2 ⟨hp, s, hs, ?_⟩
    omega
  · intro p s hp hs htime hin
    obtain ⟨_, s', hs', hgt⟩ := (hmem p).1 hin
    rw [hs] at hs'
    have : s = s' := by simpa using hs'
    subst this
    omega

/-- A plan in executing status with a started timestamp. -/
def wExecPlan : Plan :=
  { wPlan with status := .executing, execution_started_at := some "s" }

/-- Witness for C7: with a 30-minute timeout and now = 40, a plan
started at minute 9 (31 minutes ago) is classified stalled, and one
started at minute 11 (29 minutes ago) is not. -/
theorem stalled_detector_classification_witness :
    wExecPlan ∈ findStalledPlans [wExecPlan] 30 40 (fun _ => 9)
    ∧ wExecPlan ∉ findStalledPlans [wExecPlan] 30 40 (fun _ => 11) :=
  ⟨(stalled_detector_classification [wExecPlan] 30 40 (fun _ => 9)).2.2.1
     wExecPlan "s" (by decide) rfl (by decide) (by decide),
   (stalled_detector_classification [wExecPlan] 30 40 (fun _ => 11)).2.2.2
     wExecPlan "s" (by decide) rfl (by decide)⟩

/-- Identifier assignment of a create sequence: the i-th plan gets the
fresh id derived from the i-th counter value. -/
theorem runCreates_ids (ds : List (Draft × String)) (st : StoreSt) :
    (runCreates ds st).1.map Plan.id
      = (List.range ds.length).map (fun i => freshIdStr (st.nextId + i)) := by
  induction ds generalizing st with
  | nil => rfl
  | cons d rest ih =>
    rcases d with ⟨d, now⟩
    rw [runCreates]
    simp only [List.map_cons, List.length_cons, createPlan_fst, createPlan_snd,
      createdPlan]
    rw [ih]
    rw [List.range_succ_eq_map]
    simp only [List.map_cons, List.map_map, Nat.add_zero]
    refine congrArg₂ List.cons rfl ?_
    apply List.map_congr_left
    intro i _
    show freshIdStr (st.nextId + 1 + i) = freshIdStr (st.nextId + (i + 1))
    congr 1
    omega

/-- Paths created later never shadow a path outside the fresh-id range. -/
theorem runCreates_preserves (ds : List (Draft × String)) (st : StoreSt) (path : String)
    (h : ∀ n, st.nextId ≤ n → path ≠ pathOf (freshIdStr n)) :
    fsRead (runCreates ds st).2.fs path = fsRead st.fs path := by
  induction ds generalizing st with
  | nil => rfl
  | cons d rest ih =>
    rcases d with ⟨d, now⟩
    rw [runCreates]
    show fsRead (runCreates rest (createPlan d now st).2).2.fs path = fsRead st.fs path
    rw [createPlan_snd,
      ih ⟨st.nextId + 1, fsWrite st.fs (pathOf (freshIdStr st.nextId))
        (serializePlan (createdPlan d now st.nextId))⟩
        (fun n hn => h n (Nat.le_of_succ_le hn))]
    exact fsRead_write_other _ _ _ _ (h st.nextId (Nat.le_refl _))

/-- Every plan of a create sequence is proposed at version 1 with its
serialized document on disk in the final filesystem. -/
theorem runCreates_plans (ds : List (Draft × String)) (st : StoreSt) :
    ∀ q ∈ (runCreates ds st).1, q.status = .proposed ∧ q.version = 1
      ∧ fsRead (runCreates ds st).2.fs (pathOf q.id) = some (serializePlan q) := by
  induction ds generalizing st with
  | nil => intro q hq; simp [runCreates] at hq
  | cons d rest ih =>
    rcases d with ⟨d, now⟩
    intro q hq
    rw [runCreates] at hq ⊢
    have hq' : q = (createPlan d now st).1
        ∨ q ∈ (runCreates rest (createPlan d now st).2).1 := List.mem_cons.1 hq
    rcases hq' with rfl | hq'
    · refine ⟨rfl, rfl, ?_⟩
      show fsRead (runCreates rest (createPlan d now st).2).2.fs
        (pathOf (createdPlan d now st.nextId).id)
        = some (serializePlan (createdPlan d now st.nextId))
      have hid : (createdPlan d now st.nextId).id = freshIdStr st.nextId := rfl
      rw [hid, createPlan_snd,
        runCreates_preserves rest ⟨st.nextId + 1, fsWrite st.fs
          (pathOf (freshIdStr st.nextId)) (serializePlan (createdPlan d now st.nextId))⟩
          (pathOf (freshIdStr st.nextId)) ?fresh]
      case fresh =>
        intro n hn hcon
        have := freshIdStr_inj _ _ (pathOf_inj _ _ hcon)
        have hn2 : st.nextId + 1 ≤ n := hn
        omega
      exact fsRead_write_same _ _ _
    · exact ih (createPlan d now st).2 q hq'

/-- Timestamps of a create sequence: each plan carries its call's
timestamp in created_at and updated_at. -/
theorem runCreates_times (ds : List (Draft × String)) (st : StoreSt) :
    (runCreates ds st).1.map Plan.created_at = ds.map Prod.snd
    ∧ (runCreates ds st).1.map Plan.updated_at = ds.map Prod.snd := by
  induction ds generalizing st with
  | nil => exact ⟨rfl, rfl⟩
  | cons d rest ih =>
    rcases d with ⟨d, now⟩
    rw [runCreates]
    simp only [List.map_cons]
    exact ⟨by rw [show (createPlan d now st).1.created_at = now from rfl,
        (ih (createPlan d now st).2).1],
      by rw [show (createPlan d now st).1.updated_at = now from rfl,
        (ih (createPlan d now st).2).2]⟩

/-- C9.  Every create call assigns a fresh id: across any sequence of
creates the ids are pairwise distinct; each created plan has status
proposed, version 1, its created_at and updated_at set to the call's
timestamp, and its serialized document written to its file on disk. -/
theorem create_assigns_fresh_ids (ds : List (Draft × String)) (st0 : StoreSt) :
    ((runCreates ds st0).1.map Plan.id).Nodup
    ∧ (∀ q ∈ (runCreates ds st0).1, q.status = .proposed ∧ q.version = 1
        ∧ fsRead (runCreates ds st0).2.fs (pathOf q.id) = some (serializePlan q))
    ∧ (runCreates ds st0).1.map Plan.created_at = ds.map Prod.snd
    ∧ (runCreates ds st0).1.map Plan.updated_at = ds.map Prod.snd := by
  refine ⟨?_, runCreates_plans ds st0, (runCreates_times ds st0).1,
    (runCreates_times ds st0).2⟩
  rw [runCreates_ids]
  refine List.Nodup.map ?_ (List.nodup_range ds.length)
  intro a b hab
  have := freshIdStr_inj _ _ hab
  omega

/-- The Set fold and the first-occurrence dedup agree on any remaining
accumulator. -/
theorem foldlInsert_eq (l : List String) : ∀ acc : List String,
    l.foldl (fun acc t => if t ∈ acc then acc else acc ++ [t]) acc
      = acc ++ specDedup (l.filter (fun x => decide (x ∉ acc))) := by
  induction l with
  | nil => intro acc; simp [specDedup]
  | cons t ts ih =>
    intro acc
    by_cases ht : t ∈ acc
    · rw [List.foldl_cons, if_pos ht, ih acc]
      have : (t :: ts).filter (fun x => decide (x ∉ acc))
          = ts.filter (fun x => decide (x ∉ acc)) := by
        simp [List.filter_cons, ht]
      rw [this]
    · rw [List.foldl_cons, if_neg ht, ih (acc ++ [t])]
      have h1 : (t :: ts).filter (fun x => decide (x ∉ acc))
          = t :: ts.filter (fun x => decide (x ∉ acc)) := by
        simp [List.filter_cons, ht]
      rw [h1, specDedup]
      have h2 : (ts.filter (fun x => decide (x ∉ acc))).filter (fun x => decide (x ≠ t))
          = ts.filter (fun x => decide (x ∉ acc ++ [t])) := by
        rw [List.filter_filter]
        apply List.filter_congr
        intro a _
        by_cases h1a : a ∈ acc <;> by_cases h2a : a = t <;> simp [h1a, h2a]
      rw [h2, List.append_assoc]
      rfl

/-- The JavaScript Set fold equals the first-occurrence dedup. -/
theorem jsSetDedup_eq_specDedup (l : List String) : jsSetDedup l = specDedup l := by
  unfold jsSetDedup
  rw [foldlInsert_eq l []]
  have hf : l.filter (fun x => decide (x ∉ ([] : List String))) = l :=
    List.filter_eq_self.2 (fun a _ => by simp)
  rw [hf, List.nil_append]

/-- Membership in the first-occurrence dedup is membership in the
input. -/
theorem specDedup_mem : ∀ (l : List String) (x : String),
    x ∈ specDedup l ↔ x ∈ l
  | [], x => by simp [specDedup]
  | t :: ts, x => by
    rw [specDedup]
    constructor
    · intro h
      rcases List.mem_cons.1 h with rfl | h
      · simp
      · have := (specDedup_mem (ts.filter (fun y => decide (y ≠ t))) x).1 h
        exact List.mem_cons.2 (Or.inr (List.mem_filter.1 this).1)
    · intro h
      rcases List.mem_cons.1 h with rfl | h
      · simp
      · by_cases hxt : x = t
        · simp [hxt]
        · refine List.mem_cons.2 (Or.inr ?_)
          exact (specDedup_mem _ x).2 (List.mem_filter.2 ⟨h, by simpa using hxt⟩)
termination_by l => l.length
decreasing_by
  all_goals
    simp only [List.length_cons]
    exact Nat.lt_succ_of_le (List.length_filter_le _ _)

/-- The first-occurrence dedup contains no duplicates. -/
theorem specDedup_nodup : ∀ l : List String, (specDedup l).Nodup
  | [] => by simp [specDedup]
  | t :: ts => by
    rw [specDedup]
    refine List.nodup_cons.2 ⟨?_, specDedup_nodup (ts.filter (fun y => decide (y ≠ t)))⟩
    intro hmem
    have := (specDedup_mem _ t).1 hmem
    have := (List.mem_filter.1 this).2
    simp at this
termination_by l => l.length
decreasing_by
  all_goals
    simp only [List.length_cons]
    exact Nat.lt_succ_of_le (List.length_filter_le _ _)

/-- C10.  plan_propose sets tools_required to the deduplicated tool
names of the submitted steps: equal to the first-occurrence dedup of the
steps' tools (mirroring JavaScript Set insertion order), free of
duplicates, and containing exactly the tool names appearing in some
step.  The steps are the only source of tools_required. -/
theorem plan_propose_tools_required (title : String) (steps : List PlanStep)
    (ctx : Option String) (now : String) (st : StoreSt) :
    (planPropose title steps ctx now st).1.tools_required
      = specDedup (steps.map PlanStep.tool)
    ∧ ((planPropose title steps ctx now st).1.tools_required).Nodup
    ∧ (∀ t, t ∈ (planPropose title steps ctx now st).1.tools_required ↔
        ∃ s ∈ steps, s.tool = t) := by
  have heq : (planPropose title steps ctx now st).1.tools_required
      = jsSetDedup (steps.map PlanStep.tool) := rfl
  rw [heq, jsSetDedup_eq_specDedup]
  refine ⟨rfl, specDedup_nodup _, ?_⟩
  intro t
  rw [specDedup_mem, List.mem_map]

/-- Witness for C5: approving an already approved plan (as in the unit
test "cannot approve already approved plan") raises IllegalTransition
and leaves the file untouched. -/
theorem lifecycle_guard_completeness_witness :
    fsRead wFs "p" = some (serializePlan wPlan)
    ∧ parsePlan (serializePlan wPlan) = some wPlan
    ∧ opGuard .approve wPlan.status = false
    ∧ lifecycleOp .approve "p" "t" "n" wFs
        = (.error (.illegalTransition wPlan.status), wFs)
    ∧ fsRead (lifecycleOp .approve "p" "t" "n" wFs).2 "p"
      = some (serializePlan wPlan) :=
  ⟨by decide, by decide, by decide,
   (lifecycle_guard_completeness .approve "p" "t" "n" wFs (serializePlan wPlan) wPlan
     (by decide) (by decide) (by decide)).1,
   (lifecycle_guard_completeness .approve "p" "t" "n" wFs (serializePlan wPlan) wPlan
     (by decide) (by decide) (by decide)).2⟩

end PiPlanner
